import Mathlib

/-!
Shallow embedding of the `archlib` validation engine (src/archlib) in Lean 4.

Conventions used throughout:
* Python object references between nodes are represented by their `id`
  string, because the validation code only ever reads `.id` of a referenced
  `Goal`/`Solution` (see `validation.py`).
* Python `set` values are modelled as `Finset String` when only membership
  and set algebra are observed, and as Lean lists when the code observes an
  iteration order.  The DFS `path` set of `validate_dependencies.has_cycle`
  is observed through `list(path)`; CPython leaves that order unspecified,
  and this model realises it as insertion order.  Claims about that list are
  settled through properties (membership, shape) that hold for any order.
* Python dict comprehensions (`{s.id: s for s in ...}`) bind the *last*
  occurrence of a duplicated key; `lookupLast` mirrors that.
* The filesystem is an explicit value: the project root's absolute path
  segments, the relative paths of the files on disk (in the order `os.walk`
  discovers them), and one oracle per language giving the result that the
  symbol extractor produces for a path (`Except.error` models the
  `ValueError` raised by `extract_python_symbols` /
  `extract_javascript_symbols`, which wrap every internal failure).
-/

namespace Archlib

/-- Keep the first occurrence of every element, in order: the key-iteration
order of a Python dict built by inserting these keys left to right. -/
def firstOccurrences (l : List String) : List String :=
  l.foldl (fun acc x => if x ∈ acc then acc else acc ++ [x]) []

/-- Last-binding-wins dictionary lookup, as in `{f x: x for x in l}[k]` for a
Python dict comprehension (a later duplicate key overwrites an earlier one). -/
def lookupLast {α : Type} (f : α → String) (l : List α) (k : String) : Option α :=
  l.reverse.find? (fun x => f x == k)

/-- `Goal` node (nodes.py): the reference a Solution holds to it is its id. -/
structure Goal where
  id : String
  name : String
  acceptance_test : String
  description : String
deriving DecidableEq, Repr

/-- `Solution` node (nodes.py).  `satisfies` holds Goal ids, `requires`
Solution ids; `constraints` is an open string-keyed mapping whose values the
validation engine never inspects, modelled as string pairs. -/
structure Solution where
  id : String
  name : String
  satisfies : List String
  requires : List String
  constraints : List (String × String)
  description : String
deriving DecidableEq, Repr

/-- `Implementation` node (nodes.py).  `implements` holds a Solution id and
`must_define` is a dict from file path to required symbol names. -/
structure Implementation where
  id : String
  name : String
  implements : String
  code_files : List String
  test_files : List String
  must_define : List (String × List String)
  description : String
deriving DecidableEq, Repr

/-- Python `x or []`: `None` and the empty list both collapse to `[]`. -/
def pyOrList {α : Type} (o : Option (List α)) : List α :=
  match o with
  | none => []
  | some l => l

/-- `Solution.__init__` (nodes.py lines 31-44): `satisfies`, `requires` and
`constraints` pass through `x or []` / `x or {}`, so `None` (modelled as
`none`) becomes an empty collection. -/
def Solution.make (id_tag nm : String) (sat req : Option (List String))
    (con : Option (List (String × String))) (descr : String) : Solution :=
  { id := id_tag, name := nm, satisfies := pyOrList sat, requires := pyOrList req,
    constraints := pyOrList con, description := descr }

/-- `Implementation.__init__` (nodes.py lines 50-65): `code_files`,
`test_files` and `must_define` pass through `x or []` / `x or {}`. -/
def Implementation.make (id_tag nm impl : String) (cf tf : Option (List String))
    (md : Option (List (String × List String))) (descr : String) : Implementation :=
  { id := id_tag, name := nm, implements := impl, code_files := pyOrList cf,
    test_files := pyOrList tf, must_define := pyOrList md, description := descr }

/-! ## validate_traceability (validation.py lines 10-60) -/

/-- Errors contributed by one Implementation in the first loop of
`validate_traceability` (lines 21-37): dangling Solution reference, orphaned
Solution (which `continue`s past the goal check), dangling Goal references. -/
def implTraceErrors (solutions : List Solution) (goals : List Goal)
    (impl : Implementation) : List String :=
  match lookupLast (fun s => s.id) solutions impl.implements with
  | none => [impl.id ++ " implements " ++ impl.implements ++ " which doesn't exist"]
  | some sol =>
    if sol.satisfies = [] then
      [sol.id ++ " satisfies no goals (orphaned solution)"]
    else
      sol.satisfies.filterMap fun gid =>
        if goals.any (fun g => g.id == gid) then none
        else some (sol.id ++ " satisfies " ++ gid ++ " which doesn't exist")

/-- Second part of `validate_traceability` (lines 39-48): goals satisfied by
no solution, iterated in first-insertion order of the `goal_satisfied_by`
dict. -/
def orphanGoalErrors (solutions : List Solution) (goals : List Goal) : List String :=
  (firstOccurrences (goals.map (fun g => g.id))).filterMap fun gid =>
    if solutions.any (fun s => s.satisfies.any (fun g => g == gid)) then none
    else some (gid ++ " is not satisfied by any solution (orphaned goal)")

/-- Third part of `validate_traceability` (lines 50-58): solutions that no
Implementation implements. -/
def unimplementedErrors (implementations : List Implementation)
    (solutions : List Solution) : List String :=
  (firstOccurrences (solutions.map (fun s => s.id))).filterMap fun sid =>
    if implementations.any (fun i => i.implements == sid) then none
    else some (sid ++ " has no implementation (unimplemented solution)")

/-- `validate_traceability(implementations, solutions, goals)`. -/
def validateTraceability (implementations : List Implementation)
    (solutions : List Solution) (goals : List Goal) : List String :=
  implementations.flatMap (implTraceErrors solutions goals)
    ++ orphanGoalErrors solutions goals
    ++ unimplementedErrors implementations solutions

/-! ## validate_dependencies (validation.py lines 63-105) -/

/-- First loop of `validate_dependencies` (lines 70-73): `requires` entries
that name no Solution in the map. -/
def danglingRequireErrors (solutions : List Solution) : List String :=
  solutions.flatMap fun sol =>
    sol.requires.filterMap fun req =>
      if solutions.any (fun s => s.id == req) then none
      else some (sol.id ++ " requires " ++ req ++ " which doesn't exist")

/-- The `for req in sol.requires` loop of `has_cycle` (lines 90-93): run the
recursive call on each requirement, threading the mutated `visited` set, and
return the first cycle found. -/
def runRequires
    (next : String → List String → List String → List String × Option (List String)) :
    List String → List String → List String → List String × Option (List String)
  | [], visited, _ => (visited, none)
  | req :: rest, visited, path =>
    match next req visited path with
    | (v, some c) => (v, some c)
    | (v, none) => runRequires next rest v path

/-- `has_cycle(start_id, visited, path)` (lines 76-96).  The Python `visited`
and `path` sets are threaded explicitly; `list(path) + [start_id]` is the
model's `path ++ [start]` (insertion order, see module comment).  Python
recursion is unbounded; `fuel` is a recursion allowance and the driver
supplies `solutions.length + 1`, which is never exhausted because every
recursion level first marks a previously unvisited mapped id as visited
(established by the invariant theorems below). -/
def hasCycle (solutions : List Solution) :
    Nat → String → List String → List String → List String × Option (List String)
  | 0, _, visited, _ => (visited, none)
  | fuel + 1, start, visited, path =>
    if start ∈ path then (visited, some (path ++ [start]))
    else if start ∈ visited then (visited, none)
    else
      match lookupLast (fun s => s.id) solutions start with
      | none => (start :: visited, none)
      | some sol =>
        runRequires (hasCycle solutions fuel) sol.requires (start :: visited) (path ++ [start])

/-- `' → '.join(cycle)`. -/
def joinArrow : List String → String
  | [] => ""
  | [s] => s
  | s :: rest => s ++ " → " ++ joinArrow rest

/-- The reported circular-dependency error string (line 103). -/
def cycleMsg (c : List String) : String :=
  "Circular dependency detected: " ++ joinArrow c

/-- One iteration of the `for sol in solutions` driver loop (lines 99-103):
skip already visited ids, otherwise run the DFS with a fresh empty path and
append an error when it returns a cycle. -/
def cycleStep (solutions : List Solution) (st : List String × List String)
    (sol : Solution) : List String × List String :=
  if sol.id ∈ st.1 then st
  else
    match hasCycle solutions (solutions.length + 1) sol.id st.1 [] with
    | (v, none) => (v, st.2)
    | (v, some c) => (v, st.2 ++ [cycleMsg c])

/-- The driver loop of `validate_dependencies` (lines 98-103): every
not-yet-visited Solution id is used as a DFS root with a fresh empty path. -/
def cycleErrors (solutions : List Solution) : List String :=
  (solutions.foldl (cycleStep solutions) ([], [])).2

/-- `validate_dependencies(solutions)`. -/
def validateDependencies (solutions : List Solution) : List String :=
  danglingRequireErrors solutions ++ cycleErrors solutions

/-- The `requires` edge relation the DFS explores: `x` steps to `y` when the
Solution the map associates with `x` lists `y` in `requires` (lines 89-90). -/
def EdgeRel (solutions : List Solution) (x y : String) : Prop :=
  ∃ s, lookupLast (fun s => s.id) solutions x = some s ∧ y ∈ s.requires

/-- The `requires` graph contains a cycle: some id reaches itself through at
least one edge. -/
def HasRequiresCycle (solutions : List Solution) : Prop :=
  ∃ x, Relation.TransGen (EdgeRel solutions) x x

/-- DFS invariant: every fully processed id (visited but not on the current
path) has all its `requires` edges leading back into fully processed ids. -/
def BlackClosed (solutions : List Solution) (V P : List String) : Prop :=
  ∀ u ∈ V, u ∉ P → ∀ w, EdgeRel solutions u w → w ∈ V ∧ w ∉ P

/-- DFS invariant: no fully processed id lies on a `requires` cycle. -/
def BlackAcyclic (solutions : List Solution) (V P : List String) : Prop :=
  ∀ u ∈ V, u ∉ P → ¬ Relation.TransGen (EdgeRel solutions) u u

/-- The mapped Solution ids not yet in the visited set; its cardinality
bounds the remaining recursion depth of `has_cycle`. -/
def unvisitedIds (solutions : List Solution) (V : List String) : Finset String :=
  ((solutions.map fun s => s.id).toFinset).filter (fun x => x ∉ V)

/-- Precondition of one `has_cycle` call: enough fuel for the unvisited
mapped ids, the path inside the visited set, and both DFS invariants. -/
abbrev DfsPre (solutions : List Solution) (fuel : Nat) (V P : List String) : Prop :=
  (unvisitedIds solutions V).card < fuel ∧ P ⊆ V
    ∧ BlackClosed solutions V P ∧ BlackAcyclic solutions V P

/-- Postcondition of a cycle-free `has_cycle` call: the visited set only
grows, every addition is off the path, and both invariants still hold. -/
abbrev DfsPost (solutions : List Solution) (V P v' : List String) : Prop :=
  V ⊆ v' ∧ (∀ u ∈ v', u ∈ V ∨ u ∉ P)
    ∧ BlackClosed solutions v' P ∧ BlackAcyclic solutions v' P

/-! ## Filesystem model and symbol tables -/

/-- Result shape of both symbol extractors: three Python sets. -/
structure SymTable where
  classes : Finset String
  functions : Finset String
  globals : Finset String
deriving DecidableEq

/-- A snapshot of the project tree as the inventory checks observe it.
`rootParts` are the absolute-path segments of the project root (what
`os.path.abspath(root_dir)` splits into); `files` are the root-relative
paths of the on-disk files, listed in the order `os.walk` yields them;
`pyExtract`/`jsExtract` give, per path, the symbol table the corresponding
extractor returns, or the message of the `ValueError` it raises. -/
structure FileSystem where
  rootParts : List String
  files : List String
  pyExtract : String → Except String SymTable
  jsExtract : String → Except String SymTable

/-- `"a/b".split("/")` on an already-normalised relative path. -/
def splitSegsAux : List Char → List Char → List String
  | [], acc => [String.mk acc.reverse]
  | c :: cs, acc =>
    if c == '/' then String.mk acc.reverse :: splitSegsAux cs []
    else splitSegsAux cs (c :: acc)

/-- Path segments of a `/`-separated relative path. -/
def pathSegs (p : String) : List String :=
  splitSegsAux p.toList []

/-- ASCII lower-casing of one character (`str.lower` on the ASCII range,
which is all the extension strings the code compares against). -/
def charLower (c : Char) : Char :=
  if 'A' ≤ c && c ≤ 'Z' then Char.ofNat (c.toNat + 32) else c

/-- ASCII `str.lower`. -/
def strLower (s : String) : String :=
  String.mk (s.toList.map charLower)

/-- `os.path.splitext(p)[1]`: the extension of the final path segment, where
leading dots of the segment do not start an extension. -/
def extOf (p : String) : String :=
  let base := (pathSegs p).getLastD ""
  let cs := base.toList
  let core := cs.dropWhile (fun c => c == '.')
  if core.contains '.' then
    String.mk ('.' :: (core.reverse.takeWhile (fun c => !(c == '.'))).reverse)
  else ""

/-- `os.path.splitext(p)[1].lower()`. -/
def extOfLower (p : String) : String :=
  strLower (extOf p)

/-! ## validate_code_inventory (validation.py lines 108-206) -/

/-- The `code_extensions` set of the bottom-up scan (line 172). -/
def codeExts : List String := [".py", ".js", ".jsx", ".ts", ".tsx"]

/-- Extensions dispatched to the JavaScript extractor (line 152). -/
def jsExts : List String := [".js", ".jsx", ".ts", ".tsx"]

/-- The pruned directory names of the walk (lines 175-180). -/
def excludedDirs : List String :=
  [".git", "__pycache__", "node_modules", ".venv", "venv", "examples"]

/-- Python dict lookup on a `must_define` mapping (keys are unique in a
Python dict, so first match equals last match). -/
def lookupMD (md : List (String × List String)) (p : String) : Option (List String) :=
  (md.find? (fun kv => kv.1 == p)).map (fun kv => kv.2)

/-- `declared_files`: the union of all `code_files` (lines 117-119),
as a list whose membership is the set membership the code tests. -/
def declaredFiles (implementations : List Implementation) : List String :=
  implementations.flatMap (fun i => i.code_files)

/-- `declared_test_files`: all `test_files` plus, when the `goals` argument
is truthy (`if goals:` — neither `None` nor the empty list), every Goal's
`acceptance_test` (lines 120-126). -/
def declaredTestFiles (implementations : List Implementation)
    (goals : Option (List Goal)) : List String :=
  implementations.flatMap (fun i => i.test_files)
    ++ (pyOrList goals).map (fun g => g.acceptance_test)

/-- Python `repr` of one string in the `sorted(missing)` rendering. -/
def pyQuote (s : String) : String :=
  String.mk (Char.ofNat 39 :: s.toList ++ [Char.ofNat 39])

/-- `", ".join` used by the list rendering. -/
def joinCommas : List String → String
  | [] => ""
  | [s] => s
  | s :: rest => s ++ ", " ++ joinCommas rest

/-- `f"{sorted(missing)}"`: Python's `str` of a sorted list of strings. -/
def renderSorted (missing : Finset String) : String :=
  "[" ++ joinCommas ((missing.sort (· ≤ ·)).map pyQuote) ++ "]"

/-- Errors of the top-down pass for one declared code file (lines 130-169):
existence, then symbol extraction when `must_define` names the file, with a
`ValueError` from the extractor converted into an error entry. -/
def fileErrors (fs : FileSystem) (impl : Implementation) (p : String) : List String :=
  if p ∈ fs.files then
    match lookupMD impl.must_define p with
    | none => []
    | some required =>
      if extOfLower p = ".py" then
        match fs.pyExtract p with
        | Except.ok syms =>
          let allActual := syms.classes ∪ syms.functions ∪ syms.globals
          let missing := required.toFinset \ allActual
          if missing = ∅ then []
          else [impl.id ++ ": " ++ p ++ " missing symbols: " ++ renderSorted missing]
        | Except.error e => [impl.id ++ ": " ++ p ++ " - " ++ e]
      else if extOfLower p ∈ jsExts then
        match fs.jsExtract p with
        | Except.ok syms =>
          let allActual := syms.classes ∪ syms.functions ∪ syms.globals
          let missing := required.toFinset \ allActual
          if missing = ∅ then []
          else [impl.id ++ ": " ++ p ++ " missing symbols: " ++ renderSorted missing]
        | Except.error e => [impl.id ++ ": " ++ p ++ " - " ++ e]
      else []
  else [impl.id ++ ": Missing code file " ++ p]

/-- The whole top-down pass (lines 129-169). -/
def topDownErrors (implementations : List Implementation) (fs : FileSystem) : List String :=
  implementations.flatMap (fun impl => impl.code_files.flatMap (fileErrors fs impl))

/-- A file survives the `dirs[:]` pruning of the walk iff no directory
segment of its relative path is one of the excluded names (lines 173-180). -/
def notPruned (f : String) : Bool :=
  ((pathSegs f).dropLast).all (fun d => !(excludedDirs.contains d))

/-- The per-file examples test (lines 188-197): an `examples` segment in the
relative path, or anywhere in the absolute path (which includes the
segments of the project root itself), or an `examples/` head. -/
def examplesSkip (fs : FileSystem) (f : String) : Bool :=
  (pathSegs f).contains "examples"
    || (fs.rootParts ++ pathSegs f).contains "examples"
    || (pathSegs f).headD "" == "examples" && (pathSegs f).length ≥ 2

/-- The undeclared-file error string (lines 202-204). -/
def undeclaredMsg (f : String) : String :=
  "Undeclared code file: " ++ f ++ " (not in any Implementation)"

/-- The bottom-up scan (lines 171-204). -/
def bottomUpErrors (implementations : List Implementation)
    (goals : Option (List Goal)) (fs : FileSystem) : List String :=
  (fs.files.filter notPruned).filterMap fun f =>
    if extOfLower f ∈ codeExts then
      if examplesSkip fs f then none
      else if f ∈ declaredFiles implementations
          ∨ f ∈ declaredTestFiles implementations goals then none
      else some (undeclaredMsg f)
    else none

/-- `validate_code_inventory(implementations, goals, root_dir)`. -/
def validateCodeInventory (implementations : List Implementation)
    (goals : Option (List Goal)) (fs : FileSystem) : List String :=
  topDownErrors implementations fs ++ bottomUpErrors implementations goals fs

/-! ## validate_test_inventory (validation.py lines 209-230) -/

/-- `validate_test_inventory(goals, implementations, root_dir)`. -/
def validateTestInventory (goals : List Goal)
    (implementations : List Implementation) (fs : FileSystem) : List String :=
  goals.filterMap (fun g =>
      if g.acceptance_test ∈ fs.files then none
      else some (g.id ++ ": Missing acceptance test file " ++ g.acceptance_test))
    ++ implementations.flatMap (fun i =>
        i.test_files.filterMap fun t =>
          if t ∈ fs.files then none
          else some (i.id ++ ": Missing test file " ++ t))

/-! ## Architecture.validate (architecture.py lines 30-44) -/

/-- The full error list `Architecture.validate` accumulates: the four checks
concatenated in their fixed order, against one filesystem snapshot. -/
def fullValidate (goals : List Goal) (solutions : List Solution)
    (implementations : List Implementation) (fs : FileSystem) : List String :=
  validateTraceability implementations solutions goals
    ++ validateDependencies solutions
    ++ validateCodeInventory implementations (some goals) fs
    ++ validateTestInventory goals implementations fs

/-- The py-extractor is consulted for path `p` only when some Implementation
declares `p` in `code_files`, `p` exists on disk, `must_define` names `p`,
and the (lower-cased) extension is `.py` (lines 129-146). -/
def requestedPy (implementations : List Implementation) (fs : FileSystem)
    (p : String) : Prop :=
  ∃ i ∈ implementations, p ∈ i.code_files ∧ p ∈ fs.files
    ∧ (lookupMD i.must_define p).isSome ∧ extOfLower p = ".py"

/-- The js-extractor is consulted for path `p` only under the same
conditions with a JavaScript/TypeScript extension (lines 152-153). -/
def requestedJs (implementations : List Implementation) (fs : FileSystem)
    (p : String) : Prop :=
  ∃ i ∈ implementations, p ∈ i.code_files ∧ p ∈ fs.files
    ∧ (lookupMD i.must_define p).isSome ∧ extOfLower p ∈ jsExts

/-! ## extract_python_symbols (parsing/python.py lines 7-52)

The Python AST is modelled by the statement shapes the extractor
distinguishes: class definitions, (async) function definitions, assignments,
annotated assignments, and every other compound statement (`if`, `with`,
`try`, `for`, ...) reduced to the list of statements nested anywhere inside
it.  Assignment targets keep only the distinction the code makes:
`ast.Name` versus anything else.  `ast.walk` enumerates nodes breadth-first
and `set(tree.body)` compares nodes by identity; the model walks depth-first
and compares structurally, which agrees whenever the module's statements are
pairwise structurally distinct (result sets are unaffected by visit
order). -/

/-- An assignment target: an `ast.Name` or any other target form. -/
inductive PyTarget where
  | name (s : String)
  | other
deriving DecidableEq, Repr

/-- A Python statement as seen by `extract_python_symbols`. -/
inductive PyStmt where
  | classDef (nm : String) (body : List PyStmt)
  | funcDef (nm : String) (body : List PyStmt)
  | assign (targets : List PyTarget)
  | annAssign (target : PyTarget)
  | compound (body : List PyStmt)
deriving Repr

mutual

/-- Structural equality test on statements. -/
def beqPyStmt : PyStmt → PyStmt → Bool
  | PyStmt.classDef n b, PyStmt.classDef m c => n == m && beqPyStmts b c
  | PyStmt.funcDef n b, PyStmt.funcDef m c => n == m && beqPyStmts b c
  | PyStmt.assign ts, PyStmt.assign us => ts == us
  | PyStmt.annAssign t, PyStmt.annAssign u => t == u
  | PyStmt.compound b, PyStmt.compound c => beqPyStmts b c
  | _, _ => false

/-- Structural equality test on statement lists. -/
def beqPyStmts : List PyStmt → List PyStmt → Bool
  | [], [] => true
  | a :: as, b :: bs => beqPyStmt a b && beqPyStmts as bs
  | _, _ => false

end

instance : BEq PyStmt := ⟨beqPyStmt⟩

mutual

/-- `ast.walk` from one statement: the statement and everything below it. -/
def walkStmt : PyStmt → List PyStmt
  | PyStmt.classDef nm body => PyStmt.classDef nm body :: walkStmts body
  | PyStmt.funcDef nm body => PyStmt.funcDef nm body :: walkStmts body
  | PyStmt.assign ts => [PyStmt.assign ts]
  | PyStmt.annAssign t => [PyStmt.annAssign t]
  | PyStmt.compound body => PyStmt.compound body :: walkStmts body

/-- `ast.walk` over a list of statements. -/
def walkStmts : List PyStmt → List PyStmt
  | [] => []
  | s :: rest => walkStmt s ++ walkStmts rest

end

/-- Is the node an `ast.FunctionDef`, `ast.AsyncFunctionDef` or
`ast.ClassDef`? -/
def isDefLike : PyStmt → Bool
  | PyStmt.classDef _ _ => true
  | PyStmt.funcDef _ _ => true
  | _ => false

/-- The `is_top_level` computation of lines 25-35: the node is directly in
the module body, or below some module-body statement that is not a function
or class definition. -/
def isTopLevelStmt (moduleBody : List PyStmt) (node : PyStmt) : Bool :=
  moduleBody.contains node
    || moduleBody.any (fun parent =>
        (walkStmt parent).contains node && !isDefLike parent)

/-- Does this assignment statement bind `x` through an `ast.Name` target? -/
def bindsGlobal (node : PyStmt) (x : String) : Bool :=
  match node with
  | PyStmt.assign ts => ts.contains (PyTarget.name x)
  | PyStmt.annAssign t => t == PyTarget.name x
  | _ => false

/-- The `for target in node.targets` loop of lines 39-41: add every
`ast.Name` target to the accumulated globals. -/
def addNameTargets (ts : List PyTarget) (g : Finset String) : Finset String :=
  ts.foldl
    (fun acc t =>
      match t with
      | PyTarget.name s => insert s acc
      | PyTarget.other => acc) g

/-- One iteration of the `for node in ast.walk(tree)` loop (lines 18-45). -/
def pyStep (moduleBody : List PyStmt) (acc : SymTable) (node : PyStmt) : SymTable :=
  match node with
  | PyStmt.classDef nm _ => { acc with classes := insert nm acc.classes }
  | PyStmt.funcDef nm _ => { acc with functions := insert nm acc.functions }
  | PyStmt.assign ts =>
    if isTopLevelStmt moduleBody (PyStmt.assign ts) then
      { acc with globals := addNameTargets ts acc.globals }
    else acc
  | PyStmt.annAssign t =>
    if isTopLevelStmt moduleBody (PyStmt.annAssign t) then
      match t with
      | PyTarget.name s => { acc with globals := insert s acc.globals }
      | PyTarget.other => acc
    else acc
  | PyStmt.compound _ => acc

/-- `extract_python_symbols` on a successfully parsed module body. -/
def extractPythonSymbols (moduleBody : List PyStmt) : SymTable :=
  (walkStmts moduleBody).foldl (pyStep moduleBody) ⟨∅, ∅, ∅⟩

/-- The immediate children of a statement (its `body` block). -/
def childrenOf : PyStmt → List PyStmt
  | PyStmt.classDef _ body => body
  | PyStmt.funcDef _ body => body
  | PyStmt.compound body => body
  | _ => []

/-- Is `node` lexically inside some function or class body of the module? -/
def insideDefOrClass (moduleBody : List PyStmt) (node : PyStmt) : Bool :=
  (walkStmts moduleBody).any fun p =>
    isDefLike p && (walkStmts (childrenOf p)).contains node

/-! ## _parse_javascript_with_regex (parsing/javascript.py lines 46-126)

Each regular expression of the source is realised as a hand-written scanner
over the character list.  All the patterns are deterministic (every
character class is disjoint from the literal that follows it), so a direct
left-to-right scanner computes exactly what `re.findall` / `re.search`
return; scanners are run at every position, emitting a match and resuming
after its end, which is `re`'s non-overlapping semantics.  `\w` and `\s`
are matched on their ASCII ranges, which covers every input whose symbol
names are ASCII identifiers. -/

/-- `\w`: `[A-Za-z0-9_]` (ASCII). -/
def isWordChar (c : Char) : Bool :=
  ('a' ≤ c && c ≤ 'z') || ('A' ≤ c && c ≤ 'Z') || ('0' ≤ c && c ≤ '9') || c == '_'

/-- `\s`: space, tab, newline, carriage return, vertical tab, form feed. -/
def isWsChar (c : Char) : Bool :=
  c == ' ' || c == '\t' || c == '\n' || c == '\r'
    || c == Char.ofNat 11 || c == Char.ofNat 12

/-- The two brace characters, kept out of literals. -/
def lbrace : Char := Char.ofNat 123

/-- Closing brace character. -/
def rbrace : Char := Char.ofNat 125

/-- Expect a literal character sequence. -/
def dropLit : List Char → List Char → Option (List Char)
  | [], cs => some cs
  | l :: ls, c :: cs => if c == l then dropLit ls cs else none
  | _ :: _, [] => none

/-- `\s*`. -/
def dropWs0 (cs : List Char) : List Char :=
  cs.dropWhile isWsChar

/-- `\s+`. -/
def dropWs1 : List Char → Option (List Char)
  | c :: cs => if isWsChar c then some (cs.dropWhile isWsChar) else none
  | [] => none

/-- `(\w+)`: capture a maximal nonempty word. -/
def takeWord (cs : List Char) : Option (String × List Char) :=
  match cs.takeWhile isWordChar with
  | [] => none
  | w => some (String.mk w, cs.drop w.length)

/-- `\([^)]*\)`: a parenthesised span without a closing paren inside. -/
def dropParens : List Char → Option (List Char)
  | '(' :: cs =>
    match cs.dropWhile (fun c => !(c == ')')) with
    | ')' :: rest => some rest
    | _ => none
  | _ => none

/-- Does the text begin with the given character sequence? -/
def leadsWith : List Char → List Char → Bool
  | [], _ => true
  | _ :: _, [] => false
  | n :: ns, c :: cs => n == c && leadsWith ns cs

/-- All non-overlapping matches of a scanner, scanning left to right
(`re.findall`); the fuel is the text length, enough because every scanner
consumes at least one character. -/
def findAll (m : List Char → Option (String × List Char)) :
    Nat → List Char → List String
  | 0, _ => []
  | _ + 1, [] => []
  | fuel + 1, c :: cs =>
    match m (c :: cs) with
    | some (w, rest) => w :: findAll m fuel rest
    | none => findAll m fuel cs

/-- `re.findall(pattern, content)` for a single-capture pattern. -/
def findAllIn (m : List Char → Option (String × List Char)) (cs : List Char) :
    List String :=
  findAll m cs.length cs

/-- First match of a scanner anywhere in the text (`re.search`). -/
def searchFirst {α : Type} (m : List Char → Option α) : List Char → Option α
  | [] => none
  | c :: cs =>
    match m (c :: cs) with
    | some r => some r
    | none => searchFirst m cs

/-- Text before the first occurrence of the literal `needle`
(`content[:content.find(needle)]`, the whole text when absent). -/
def takeUntilSub (needle : List Char) : List Char → List Char
  | [] => []
  | c :: rest =>
    if leadsWith needle (c :: rest) then []
    else c :: takeUntilSub needle rest

/-- `class\s+(\w+)` (line 55). -/
def matchClassDecl (cs : List Char) : Option (String × List Char) :=
  match dropLit "class".toList cs with
  | none => none
  | some r1 =>
    match dropWs1 r1 with
    | none => none
    | some r2 => takeWord r2

/-- `class\s+NAME\s*\{` for a fixed name (line 64); yields the text after
the opening brace (`match.end()`). -/
def matchClassOpen (nm : String) (cs : List Char) : Option (String × List Char) :=
  match dropLit "class".toList cs with
  | none => none
  | some r1 =>
    match dropWs1 r1 with
    | none => none
    | some r2 =>
      match dropLit nm.toList r2 with
      | none => none
      | some r3 =>
        match dropWs0 r3 with
        | c :: r4 => if c == lbrace then some (nm, r4) else none
        | [] => none

/-- `(\w+)\s*\([^)]*\)\s*{` — method with parameter list (line 76). -/
def matchMethodParens (cs : List Char) : Option (String × List Char) :=
  match takeWord cs with
  | none => none
  | some (w, r1) =>
    match dropParens (dropWs0 r1) with
    | none => none
    | some r2 =>
      match dropWs0 r2 with
      | c :: r3 => if c == lbrace then some (w, r3) else none
      | [] => none

/-- `(\w+)\s*=\s*\([^)]*\)\s*=>` — arrow-function member (line 77). -/
def matchArrowMethod (cs : List Char) : Option (String × List Char) :=
  match takeWord cs with
  | none => none
  | some (w, r1) =>
    match dropLit ['='] (dropWs0 r1) with
    | none => none
    | some r2 =>
      match dropParens (dropWs0 r2) with
      | none => none
      | some r3 => (dropLit ['=', '>'] (dropWs0 r3)).map (fun r4 => (w, r4))

/-- `(\w+)\s*=\s*async\s*\([^)]*\)\s*=>` — async arrow member (line 78). -/
def matchAsyncArrowMethod (cs : List Char) : Option (String × List Char) :=
  match takeWord cs with
  | none => none
  | some (w, r1) =>
    match dropLit ['='] (dropWs0 r1) with
    | none => none
    | some r2 =>
      match dropLit "async".toList (dropWs0 r2) with
      | none => none
      | some r3 =>
        match dropParens (dropWs0 r3) with
        | none => none
        | some r4 => (dropLit ['=', '>'] (dropWs0 r4)).map (fun r5 => (w, r5))

/-- `function\s+(\w+)\s*\(` (line 86). -/
def matchFunctionDecl (cs : List Char) : Option (String × List Char) :=
  match dropLit "function".toList cs with
  | none => none
  | some r1 =>
    match dropWs1 r1 with
    | none => none
    | some r2 =>
      match takeWord r2 with
      | none => none
      | some (w, r3) =>
        match dropWs0 r3 with
        | '(' :: r4 => some (w, r4)
        | _ => none

/-- The `(?:function|\(|async\s+function)` alternatives of lines 87-89. -/
def dropFuncIntro (cs : List Char) : Option (List Char) :=
  match dropLit "function".toList cs with
  | some r => some r
  | none =>
    match cs with
    | '(' :: r => some r
    | _ =>
      match dropLit "async".toList cs with
      | none => none
      | some r1 =>
        match dropWs1 r1 with
        | none => none
        | some r2 => dropLit "function".toList r2

/-- `KW\s+(\w+)\s*=\s*(?:function|\(|async\s+function)` for a declaration
keyword (lines 87-89). -/
def matchDeclFunc (kw : String) (cs : List Char) : Option (String × List Char) :=
  match dropLit kw.toList cs with
  | none => none
  | some r1 =>
    match dropWs1 r1 with
    | none => none
    | some r2 =>
      match takeWord r2 with
      | none => none
      | some (w, r3) =>
        match dropLit ['='] (dropWs0 r3) with
        | none => none
        | some r4 => (dropFuncIntro (dropWs0 r4)).map (fun r5 => (w, r5))

/-- `async\s+function\s+(\w+)\s*\(` (line 90). -/
def matchAsyncFunctionDecl (cs : List Char) : Option (String × List Char) :=
  match dropLit "async".toList cs with
  | none => none
  | some r1 =>
    match dropWs1 r1 with
    | none => none
    | some r2 => matchFunctionDecl r2

/-- `window\.(\w+)\s*=` (line 103). -/
def matchWindowGlobal (cs : List Char) : Option (String × List Char) :=
  match dropLit "window.".toList cs with
  | none => none
  | some r1 =>
    match takeWord r1 with
    | none => none
    | some (w, r2) => (dropLit ['='] (dropWs0 r2)).map (fun r3 => (w, r3))

/-- `KW\s+(\w+)\s*=\s*(?!function|\(|async)` for a declaration keyword
(lines 104-106); the negative lookahead consumes nothing. -/
def matchDeclGlobal (kw : String) (cs : List Char) : Option (String × List Char) :=
  match dropLit kw.toList cs with
  | none => none
  | some r1 =>
    match dropWs1 r1 with
    | none => none
    | some r2 =>
      match takeWord r2 with
      | none => none
      | some (w, r3) =>
        match dropLit ['='] (dropWs0 r3) with
        | none => none
        | some r4 =>
          let r5 := dropWs0 r4
          if leadsWith "function".toList r5 then none
          else if leadsWith ['('] r5 then none
          else if leadsWith "async".toList r5 then none
          else some (w, r5)

/-- `module\.exports\s*=\s*\{([^}]+)\}` at one position (line 113); yields
the captured group. -/
def matchModuleExports (cs : List Char) : Option (List Char) :=
  match dropLit "module.exports".toList cs with
  | none => none
  | some r1 =>
    match dropLit ['='] (dropWs0 r1) with
    | none => none
    | some r2 =>
      match dropWs0 r2 with
      | c :: r3 =>
        if c == lbrace then
          match r3.takeWhile (fun d => !(d == rbrace)) with
          | [] => none
          | grp =>
            match r3.drop grp.length with
            | d :: _ => if d == rbrace then some grp else none
            | [] => none
        else none
      | [] => none

/-- `(\w+)\s*:` — one key of the exports mapping literal (line 117). -/
def matchExportKey (cs : List Char) : Option (String × List Char) :=
  match takeWord cs with
  | none => none
  | some (w, r1) =>
    match dropWs0 r1 with
    | ':' :: r2 => some (w, r2)
    | _ => none

/-- The keys `re.findall` extracts from the `module.exports` mapping
literal, when the search finds one (lines 113-118). -/
def moduleExportKeys (cs : List Char) : List String :=
  match searchFirst matchModuleExports cs with
  | none => []
  | some grp => findAllIn matchExportKey grp

/-- All rest-of-text suffixes after matches of a scanner (used to model
`re.finditer` and `match.end()`). -/
def findAllRests (m : List Char → Option (String × List Char)) :
    Nat → List Char → List (List Char)
  | 0, _ => []
  | _ + 1, [] => []
  | fuel + 1, c :: cs =>
    match m (c :: cs) with
    | some (_, rest) => rest :: findAllRests m fuel rest
    | none => findAllRests m fuel cs

/-- Method names found inside the textual span of one class (lines 63-82):
the chunk runs from after `class NAME {` to the next `class ` occurrence. -/
def methodsOfClass (cs : List Char) (nm : String) : List String :=
  (findAllRests (matchClassOpen nm) cs.length cs).flatMap fun rest =>
    let chunk := takeUntilSub "class ".toList rest
    findAllIn matchMethodParens chunk
      ++ findAllIn matchArrowMethod chunk
      ++ findAllIn matchAsyncArrowMethod chunk

/-- `_parse_javascript_with_regex` on decoded file contents.  The source
copies the local `functions` set into `symbols["functions"]` (line 96)
*before* the `module.exports` keys are unioned into that local set
(line 119), so the exported keys never reach the returned table; the
`exportsFunctions` binding below mirrors that dead final value of the
local set. -/
def parseJavascriptWithRegex (content : String) : SymTable :=
  let cs := content.toList
  let classes := (findAllIn matchClassDecl cs).toFinset
  let methodNames := (findAllIn matchClassDecl cs).flatMap (methodsOfClass cs)
  let standalone :=
    findAllIn matchFunctionDecl cs
      ++ findAllIn (matchDeclFunc "const") cs
      ++ findAllIn (matchDeclFunc "let") cs
      ++ findAllIn (matchDeclFunc "var") cs
      ++ findAllIn matchAsyncFunctionDecl cs
  let functions := (methodNames ++ standalone).toFinset
  let symFunctions := functions
  let globalsSet :=
    (findAllIn matchWindowGlobal cs
      ++ findAllIn (matchDeclGlobal "const") cs
      ++ findAllIn (matchDeclGlobal "let") cs
      ++ findAllIn (matchDeclGlobal "var") cs).toFinset
  let exported := moduleExportKeys cs
  let _exportsFunctions := functions ∪ exported.toFinset
  { classes := classes, functions := symFunctions, globals := globalsSet }

/-- `extract_javascript_symbols`: the tree-sitter initialiser always
returns `None` (javascript.py line 27), so every call falls back to the
regex parser. -/
def extractJavascriptSymbols (content : String) : SymTable :=
  parseJavascriptWithRegex content

/-! ## Concrete fixtures used by counterexamples and witnesses -/

/-- A Solution with given id, `satisfies` and `requires` lists. -/
def sampleSol (i : String) (sat req : List String) : Solution :=
  { id := i, name := i, satisfies := sat, requires := req,
    constraints := [], description := "" }

/-- An Implementation with given id, implemented Solution id and files. -/
def sampleImpl (i impl : String) (cf tf : List String)
    (md : List (String × List String)) : Implementation :=
  { id := i, name := i, implements := impl, code_files := cf,
    test_files := tf, must_define := md, description := "" }

/-- Dependency graph `A → B → C → B`: the 2-cycle `B → C → B` is entered
from the non-cycle id `A`. -/
def cexSolutions : List Solution :=
  [sampleSol "A" ["G"] ["B"], sampleSol "B" ["G"] ["C"], sampleSol "C" ["G"] ["B"]]

/-- A two-element `requires` cycle `SA → SB → SA`. -/
def twoCycleSolutions : List Solution :=
  [sampleSol "SA" ["G"] ["SB"], sampleSol "SB" ["G"] ["SA"]]

/-- A Solution with an empty `satisfies` list. -/
def orphanSol : Solution := sampleSol "S-E" [] []

/-- Two Implementations that both implement `orphanSol`. -/
def orphanImpls : List Implementation :=
  [sampleImpl "I-1" "S-E" [] [] [], sampleImpl "I-2" "S-E" [] [] []]

/-- A JavaScript source whose only symbol-bearing construct is an
object-literal mapping assigned to `module.exports`. -/
def c3Content : String :=
  "module.exports = \x7b\n  greet: greet\n\x7d;\n"

/-- The assignment statement of the C4 counterexample module. -/
def c4Assign : PyStmt := PyStmt.assign [PyTarget.name "hidden"]

/-- A module whose single statement is an `if` block containing a function
definition whose body performs the assignment: the assignment sits inside a
function body, yet below a top-level non-def statement. -/
def c4Body : List PyStmt :=
  [PyStmt.compound [PyStmt.funcDef "f" [c4Assign]]]

/-- An extractor oracle that is never consulted in the fixtures using it. -/
def unusedExtractor : String → Except String SymTable :=
  fun _ => Except.error "unused"

/-- A project whose root directory lives below a directory named
`examples`: `/home/examples/proj`, holding one undeclared source file. -/
def fsExamplesRoot : FileSystem :=
  { rootParts := ["", "home", "examples", "proj"], files := ["y.py"],
    pyExtract := unusedExtractor, jsExtract := unusedExtractor }

/-- A project at `/home/proj` holding one undeclared source file. -/
def fsPlainRoot : FileSystem :=
  { rootParts := ["", "home", "proj"], files := ["y.py"],
    pyExtract := unusedExtractor, jsExtract := unusedExtractor }

/-- An Implementation declaring `src/a.py` with one required symbol. -/
def implParseFail : Implementation :=
  sampleImpl "I-P" "S-P" ["src/a.py"] [] [("src/a.py", ["Foo"])]

/-- A filesystem on which extracting `src/a.py` raises
`ValueError("boom")`. -/
def fsParseFail : FileSystem :=
  { rootParts := ["", "home", "proj"], files := ["src/a.py"],
    pyExtract := fun _ => Except.error "boom",
    jsExtract := unusedExtractor }

/-- A Goal whose acceptance test is an on-disk Python file declared
nowhere else. -/
def goalUat : Goal :=
  { id := "G-9", name := "G-9", acceptance_test := "tests/uat.py", description := "" }

/-- The filesystem holding only `goalUat`'s acceptance test. -/
def fsUat : FileSystem :=
  { rootParts := ["", "home", "proj"], files := ["tests/uat.py"],
    pyExtract := unusedExtractor, jsExtract := unusedExtractor }

/-- The undeclared-file emission for one walked file, combining the pruning
filter with the per-file tests of the bottom-up scan (used to reason about
`bottomUpErrors` one file at a time). -/
def emitUndeclared (implementations : List Implementation)
    (goals : Option (List Goal)) (fs : FileSystem) (f : String) : Option String :=
  if notPruned f then
    if extOfLower f ∈ codeExts then
      if examplesSkip fs f then none
      else if f ∈ declaredFiles implementations
          ∨ f ∈ declaredTestFiles implementations goals then none
      else some (undeclaredMsg f)
    else none
  else none

/-! # Theorems -/

/-! ## String facts -/

theorem str_data_append (s t : String) : (s ++ t).data = s.data ++ t.data := rfl

theorem str_append_ne_of_suffix_incomp {x y s t : String}
    (h1 : ¬ s.data <:+ t.data) (h2 : ¬ t.data <:+ s.data) : x ++ s ≠ y ++ t := by
  intro h
  have hd : x.data ++ s.data = y.data ++ t.data := by
    rw [← str_data_append, ← str_data_append, h]
  have hs : s.data <:+ y.data ++ t.data := ⟨x.data, hd⟩
  have ht : t.data <:+ y.data ++ t.data := List.suffix_append _ _
  rcases List.suffix_or_suffix_of_suffix hs ht with h' | h'
  · exact h1 h'
  · exact h2 h'

theorem str_append_right_cancel {x y s : String} (h : x ++ s = y ++ s) : x = y := by
  apply String.ext
  have hd : x.data ++ s.data = y.data ++ s.data := by
    rw [← str_data_append, ← str_data_append, h]
  exact List.append_cancel_right hd

theorem str_append_left_cancel {x s t : String} (h : x ++ s = x ++ t) : s = t := by
  apply String.ext
  have hd : x.data ++ s.data = x.data ++ t.data := by
    rw [← str_data_append, ← str_data_append, h]
  exact List.append_cancel_left hd

/-! ## Dictionary-lookup facts -/

theorem lookupLast_mem {α : Type} {f : α → String} {l : List α} {k : String} {x : α}
    (h : lookupLast f l k = some x) : x ∈ l ∧ f x = k := by
  unfold lookupLast at h
  refine ⟨List.mem_reverse.1 (List.mem_of_find?_eq_some h), ?_⟩
  have := List.find?_some h
  simpa [beq_iff_eq] using this

theorem lookupLast_eq_none {α : Type} {f : α → String} {l : List α} {k : String}
    (h : lookupLast f l k = none) : ∀ x ∈ l, f x ≠ k := by
  unfold lookupLast at h
  intro x hx
  have := List.find?_eq_none.1 h x (List.mem_reverse.2 hx)
  simpa [beq_iff_eq] using this

/-! ## C10 — constructor defaults -/

/-- C10: after construction, `Solution.satisfies`, `Solution.requires`,
`Solution.constraints`, `Implementation.code_files`,
`Implementation.test_files` and `Implementation.must_define` are the passed
list (or dict) and never a missing value: a `None` argument (modelled as
`none`) or an omitted optional argument produces the empty collection, so
every Engine check can iterate these attributes unconditionally. -/
theorem c10_constructor_defaults (it nm impl descr : String)
    (sat req cf tf : Option (List String)) (con : Option (List (String × String)))
    (md : Option (List (String × List String))) :
    (Solution.make it nm sat req con descr).satisfies = sat.getD []
  ∧ (Solution.make it nm sat req con descr).requires = req.getD []
  ∧ (Solution.make it nm sat req con descr).constraints = con.getD []
  ∧ (Implementation.make it nm impl cf tf md descr).code_files = cf.getD []
  ∧ (Implementation.make it nm impl cf tf md descr).test_files = tf.getD []
  ∧ (Implementation.make it nm impl cf tf md descr).must_define = md.getD [] := by
  refine ⟨?_, ?_, ?_, ?_, ?_, ?_⟩ <;>
    first
      | (cases sat <;> rfl)
      | (cases req <;> rfl)
      | (cases con <;> rfl)
      | (cases cf <;> rfl)
      | (cases tf <;> rfl)
      | (cases md <;> rfl)

/-! ## C8 — idempotence of the full validation -/

/-- C8: running the full validation (traceability, dependency,
code-inventory and test-inventory checks concatenated in that fixed order)
twice on the same Goals, Solutions and Implementations against the same
filesystem snapshot yields element-for-element identical error lists.  All
state the checks read is an explicit argument of `fullValidate`, so the two
runs are the same value. -/
theorem c8_idempotent (goals : List Goal) (solutions : List Solution)
    (implementations : List Implementation) (fs : FileSystem) :
    fullValidate goals solutions implementations fs
      = fullValidate goals solutions implementations fs := rfl

/-! ## C3 — module.exports keys never reach the returned functions set -/

/-- C3: on a JavaScript source whose `module.exports` is assigned an
object-literal mapping, the regex fallback does parse the mapping's key
(`moduleExportKeys` returns `greet`), yet the returned table is empty —
in particular the key is not in `functions` — because the source unions the
exported keys into the local `functions` set only after that set was copied
into the result (javascript.py lines 96 and 119). -/
theorem c3_exports_key_dropped :
    moduleExportKeys c3Content.toList = ["greet"]
  ∧ (extractJavascriptSymbols c3Content).functions = ∅
  ∧ (extractJavascriptSymbols c3Content).classes = ∅
  ∧ (extractJavascriptSymbols c3Content).globals = ∅ := by decide

/-! ## C4 — which assignments count as globals -/

/-- C4 counterexample: in the module `if ...: def f(): hidden = 1` the
assignment sits inside a function body (`insideDefOrClass` is true), yet
`extract_python_symbols` returns `hidden` among the globals, because the
top-level parent of the assignment is the `if` statement, which is not a
function or class definition (python.py lines 26-35). -/
theorem c4_counterexample :
    insideDefOrClass c4Body c4Assign = true
  ∧ (walkStmts c4Body).contains c4Assign = true
  ∧ "hidden" ∈ (extractPythonSymbols c4Body).globals := by decide

theorem mem_addNameTargets (x : String) :
    ∀ (ts : List PyTarget) (g : Finset String),
      x ∈ addNameTargets ts g ↔ x ∈ g ∨ PyTarget.name x ∈ ts := by
  intro ts
  induction ts with
  | nil => intro g; simp [addNameTargets]
  | cons t rest ih =>
    intro g
    cases t with
    | name s =>
      have : addNameTargets (PyTarget.name s :: rest) g
          = addNameTargets rest (insert s g) := rfl
      rw [this, ih]
      constructor
      · rintro (hg | hr)
        · rcases Finset.mem_insert.1 hg with h | h
          · exact Or.inr (by simp [h])
          · exact Or.inl h
        · exact Or.inr (List.mem_cons_of_mem _ hr)
      · rintro (hg | hr)
        · exact Or.inl (Finset.mem_insert.2 (Or.inr hg))
        · rcases List.mem_cons.1 hr with h | h
          · cases h; exact Or.inl (Finset.mem_insert.2 (Or.inl rfl))
          · exact Or.inr h
    | other =>
      have : addNameTargets (PyTarget.other :: rest) g = addNameTargets rest g := rfl
      rw [this, ih]
      simp

theorem mem_globals_pyFold (body : List PyStmt) (x : String) :
    ∀ (l : List PyStmt) (acc : SymTable),
      x ∈ (l.foldl (pyStep body) acc).globals ↔
        x ∈ acc.globals ∨ ∃ n ∈ l, bindsGlobal n x ∧ isTopLevelStmt body n := by
  intro l
  induction l with
  | nil => intro acc; simp
  | cons s rest ih =>
    intro acc
    rw [List.foldl_cons, ih]
    cases s with
    | classDef nm b =>
      simp [pyStep, bindsGlobal]
    | funcDef nm b =>
      simp [pyStep, bindsGlobal]
    | assign ts =>
      by_cases htl : isTopLevelStmt body (PyStmt.assign ts)
      · have hstep : pyStep body acc (PyStmt.assign ts)
            = { acc with globals := addNameTargets ts acc.globals } := by
          simp [pyStep, htl]
        rw [hstep]
        simp only [mem_addNameTargets, bindsGlobal, List.mem_cons]
        constructor
        · rintro ((hg | hts) | hex)
          · exact Or.inl hg
          · exact Or.inr ⟨PyStmt.assign ts, Or.inl rfl, by simpa using hts, htl⟩
          · rcases hex with ⟨n, hn, hb, ht⟩
            exact Or.inr ⟨n, Or.inr hn, hb, ht⟩
        · rintro (hg | ⟨n, hn | hn, hb, ht⟩)
          · exact Or.inl (Or.inl hg)
          · subst hn
            exact Or.inl (Or.inr (by simpa [bindsGlobal] using hb))
          · exact Or.inr ⟨n, hn, hb, ht⟩
      · have hstep : pyStep body acc (PyStmt.assign ts) = acc := by
          simp [pyStep, htl]
        rw [hstep]
        simp only [bindsGlobal, List.mem_cons]
        constructor
        · rintro (hg | ⟨n, hn, hb, ht⟩)
          · exact Or.inl hg
          · exact Or.inr ⟨n, Or.inr hn, hb, ht⟩
        · rintro (hg | ⟨n, hn | hn, hb, ht⟩)
          · exact Or.inl hg
          · subst hn; exact absurd ht htl
          · exact Or.inr ⟨n, hn, hb, ht⟩
    | annAssign t =>
      by_cases htl : isTopLevelStmt body (PyStmt.annAssign t)
      · cases t with
        | name s =>
          have hstep : pyStep body acc (PyStmt.annAssign (PyTarget.name s))
              = { acc with globals := insert s acc.globals } := by
            simp [pyStep, htl]
          rw [hstep]
          simp only [Finset.mem_insert, bindsGlobal, List.mem_cons]
          constructor
          · rintro ((hg | hg) | hex)
            · exact Or.inr ⟨PyStmt.annAssign (PyTarget.name s), Or.inl rfl,
                by simp [bindsGlobal, hg], htl⟩
            · exact Or.inl hg
            · rcases hex with ⟨n, hn, hb, ht⟩
              exact Or.inr ⟨n, Or.inr hn, hb, ht⟩
          · rintro (hg | ⟨n, hn | hn, hb, ht⟩)
            · exact Or.inl (Or.inr hg)
            · subst hn
              have hxs : s = x := by simpa [bindsGlobal, PyTarget.name.injEq] using hb
              exact Or.inl (Or.inl hxs.symm)
            · exact Or.inr ⟨n, hn, hb, ht⟩
        | other =>
          have hstep : pyStep body acc (PyStmt.annAssign PyTarget.other) = acc := by
            simp [pyStep, htl]
          rw [hstep]
          simp only [bindsGlobal, List.mem_cons]
          constructor
          · rintro (hg | ⟨n, hn, hb, ht⟩)
            · exact Or.inl hg
            · exact Or.inr ⟨n, Or.inr hn, hb, ht⟩
          · rintro (hg | ⟨n, hn | hn, hb, ht⟩)
            · exact Or.inl hg
            · subst hn; simp [bindsGlobal] at hb
            · exact Or.inr ⟨n, hn, hb, ht⟩
      · have hstep : pyStep body acc (PyStmt.annAssign t) = acc := by
          simp [pyStep, htl]
        rw [hstep]
        simp only [bindsGlobal, List.mem_cons]
        constructor
        · rintro (hg | ⟨n, hn, hb, ht⟩)
          · exact Or.inl hg
          · exact Or.inr ⟨n, Or.inr hn, hb, ht⟩
        · rintro (hg | ⟨n, hn | hn, hb, ht⟩)
          · exact Or.inl hg
          · subst hn; exact absurd ht htl
          · exact Or.inr ⟨n, hn, hb, ht⟩
    | compound b =>
      simp [pyStep, bindsGlobal]

/-- C4 (amended): `extract_python_symbols` adds an assigned name to
`globals` iff some walked assignment binds it through an `ast.Name` target
and that assignment is directly in the module body or anywhere below a
top-level statement that is not a function or class definition.  In
particular an assignment inside an `if`/`with`/`try` block at module top
level is included — and so is an assignment inside a function or class
body whenever that function or class is itself nested inside such a
top-level block; only assignments under a *top-level* function or class
definition are excluded. -/
theorem c4_globals_characterisation (body : List PyStmt) (x : String) :
    x ∈ (extractPythonSymbols body).globals ↔
      ∃ n ∈ walkStmts body, bindsGlobal n x ∧ isTopLevelStmt body n := by
  unfold extractPythonSymbols
  rw [mem_globals_pyFold]
  simp

/-! ## C2 — orphaned-solution reporting -/

/-- C2 counterexample: `orphanSol` has an empty `satisfies` list and two
Implementations reference it, yet `validate_traceability` reports the
orphaned-solution error twice, not exactly once — the error is emitted
inside the per-Implementation loop (validation.py lines 21-32).  (With an
empty Implementation list the same input yields the error zero times.) -/
theorem c2_counterexample :
    orphanSol.satisfies = []
  ∧ (validateTraceability orphanImpls [orphanSol] []).count
      ("S-E" ++ " satisfies no goals (orphaned solution)") = 2
  ∧ (validateTraceability [] [orphanSol] []).count
      ("S-E" ++ " satisfies no goals (orphaned solution)") = 0 := by decide

theorem implTraceErrors_count_orphan (solutions : List Solution) (goals : List Goal)
    (S : Solution) (hS : lookupLast (fun s => s.id) solutions S.id = some S)
    (hsat : S.satisfies = []) (i : Implementation) :
    (implTraceErrors solutions goals i).count
        (S.id ++ " satisfies no goals (orphaned solution)")
      = if i.implements = S.id then 1 else 0 := by
  by_cases him : i.implements = S.id
  · rw [if_pos him]
    unfold implTraceErrors
    rw [him, hS]
    dsimp only
    rw [if_pos hsat]
    simp [List.count_singleton]
  · rw [if_neg him]
    unfold implTraceErrors
    cases hlk : lookupLast (fun s => s.id) solutions i.implements with
    | none =>
      apply List.count_eq_zero_of_not_mem
      intro hmem
      rcases List.mem_singleton.1 hmem with heq
      exact str_append_ne_of_suffix_incomp (by decide) (by decide) heq.symm
    | some T =>
      have hTid : T.id = i.implements := (lookupLast_mem hlk).2
      dsimp only
      by_cases hTsat : T.satisfies = []
      · rw [if_pos hTsat]
        apply List.count_eq_zero_of_not_mem
        intro hmem
        rcases List.mem_singleton.1 hmem with heq
        have : S.id = T.id := str_append_right_cancel heq
        exact him (by rw [← hTid, ← this])
      · rw [if_neg hTsat]
        apply List.count_eq_zero_of_not_mem
        intro hmem
        rcases List.mem_filterMap.1 hmem with ⟨gid, _, hgid⟩
        by_cases hany : goals.any (fun g => g.id == gid)
        · rw [if_pos hany] at hgid
          exact Option.noConfusion hgid
        · rw [if_neg hany] at hgid
          have heq := Option.some.inj hgid
          exact str_append_ne_of_suffix_incomp (by decide) (by decide) heq

theorem count_orphan_flatMap (solutions : List Solution) (goals : List Goal)
    (S : Solution) (hS : lookupLast (fun s => s.id) solutions S.id = some S)
    (hsat : S.satisfies = []) :
    ∀ impls : List Implementation,
      (impls.flatMap (implTraceErrors solutions goals)).count
          (S.id ++ " satisfies no goals (orphaned solution)")
        = (impls.filter (fun i => i.implements == S.id)).length := by
  intro impls
  induction impls with
  | nil => simp
  | cons i rest ih =>
    rw [List.flatMap_cons, List.count_append, ih,
      implTraceErrors_count_orphan solutions goals S hS hsat i]
    by_cases him : i.implements = S.id
    · simp [List.filter_cons, him]
      omega
    · simp [List.filter_cons, him]

/-- C2 (amended): for a Solution `S` with empty `satisfies` (reachable by
its id in the solution map), `validate_traceability` reports the
orphaned-solution error once per Implementation whose `implements`
reference is `S` — zero times when no Implementation references it — and
each such Implementation contributes exactly that one error, so the
dangling-Goal check (invariant 3) is skipped for it. -/
theorem c2_orphan_per_implementation (impls : List Implementation)
    (solutions : List Solution) (goals : List Goal) (S : Solution)
    (hS : lookupLast (fun s => s.id) solutions S.id = some S)
    (hsat : S.satisfies = []) :
    (validateTraceability impls solutions goals).count
        (S.id ++ " satisfies no goals (orphaned solution)")
      = (impls.filter (fun i => i.implements == S.id)).length
  ∧ ∀ i ∈ impls, i.implements = S.id →
      implTraceErrors solutions goals i
        = [S.id ++ " satisfies no goals (orphaned solution)"] := by
  constructor
  · unfold validateTraceability
    rw [List.count_append, List.count_append]
    have hgoal : (orphanGoalErrors solutions goals).count
        (S.id ++ " satisfies no goals (orphaned solution)") = 0 := by
      apply List.count_eq_zero_of_not_mem
      intro hmem
      rcases List.mem_filterMap.1 hmem with ⟨gid, _, hgid⟩
      by_cases hany : solutions.any (fun s => s.satisfies.any (fun g => g == gid))
      · rw [if_pos hany] at hgid
        exact Option.noConfusion hgid
      · rw [if_neg hany] at hgid
        have heq := Option.some.inj hgid
        exact str_append_ne_of_suffix_incomp (by decide) (by decide) heq
    have hunimpl : (unimplementedErrors impls solutions).count
        (S.id ++ " satisfies no goals (orphaned solution)") = 0 := by
      apply List.count_eq_zero_of_not_mem
      intro hmem
      rcases List.mem_filterMap.1 hmem with ⟨sid, _, hsid⟩
      by_cases hany : impls.any (fun i => i.implements == sid)
      · rw [if_pos hany] at hsid
        exact Option.noConfusion hsid
      · rw [if_neg hany] at hsid
        have heq := Option.some.inj hsid
        exact str_append_ne_of_suffix_incomp (by decide) (by decide) heq
    rw [hgoal, hunimpl, count_orphan_flatMap solutions goals S hS hsat impls]
    omega
  · intro i _ him
    unfold implTraceErrors
    rw [him, hS]
    dsimp only
    rw [if_pos hsat]

/-- C2 witness: the amended count theorem applied to `orphanSol` with its
two referencing Implementations. -/
theorem c2_orphan_per_implementation_witness :
    lookupLast (fun s => s.id) [orphanSol] orphanSol.id = some orphanSol
  ∧ orphanSol.satisfies = []
  ∧ (validateTraceability orphanImpls [orphanSol] []).count
        (orphanSol.id ++ " satisfies no goals (orphaned solution)")
      = (orphanImpls.filter (fun i => i.implements == orphanSol.id)).length :=
  ⟨by decide, by decide,
    (c2_orphan_per_implementation orphanImpls [orphanSol] [] orphanSol
      (by decide) (by decide)).1⟩

/-! ## Bottom-up scan facts (for C5 and C9) -/

theorem undeclaredMsg_inj {a b : String} (h : undeclaredMsg a = undeclaredMsg b) :
    a = b := by
  unfold undeclaredMsg at h
  exact str_append_left_cancel (str_append_right_cancel h)

theorem bottomUpErrors_eq_filterMap (implementations : List Implementation)
    (goals : Option (List Goal)) (fs : FileSystem) :
    bottomUpErrors implementations goals fs
      = fs.files.filterMap (emitUndeclared implementations goals fs) := by
  unfold bottomUpErrors
  generalize fs.files = l
  induction l with
  | nil => rfl
  | cons x rest ih =>
    by_cases hx : notPruned x
    · rw [List.filter_cons_of_pos hx, List.filterMap_cons, List.filterMap_cons]
      have hemit : emitUndeclared implementations goals fs x
          = if extOfLower x ∈ codeExts then
              if examplesSkip fs x then none
              else if x ∈ declaredFiles implementations
                  ∨ x ∈ declaredTestFiles implementations goals then none
              else some (undeclaredMsg x)
            else none := by
        unfold emitUndeclared
        rw [if_pos hx]
      rw [hemit, ih]
    · rw [List.filter_cons_of_neg hx, List.filterMap_cons]
      have hemit : emitUndeclared implementations goals fs x = none := by
        unfold emitUndeclared
        rw [if_neg hx]
      rw [hemit, ih]

theorem emitUndeclared_eq_some_iff (implementations : List Implementation)
    (goals : Option (List Goal)) (fs : FileSystem) (f g : String) :
    emitUndeclared implementations goals fs g = some (undeclaredMsg f) ↔
      g = f ∧ notPruned f = true ∧ extOfLower f ∈ codeExts
        ∧ examplesSkip fs f = false
        ∧ f ∉ declaredFiles implementations
        ∧ f ∉ declaredTestFiles implementations goals := by
  unfold emitUndeclared
  constructor
  · intro h
    by_cases h1 : notPruned g
    · rw [if_pos h1] at h
      by_cases h2 : extOfLower g ∈ codeExts
      swap
      · rw [if_neg h2] at h
        exact absurd h (by simp)
      · rw [if_pos h2] at h
        by_cases h3 : examplesSkip fs g
        · rw [if_pos h3] at h
          exact absurd h (by simp)
        · rw [if_neg h3] at h
          by_cases h4 : g ∈ declaredFiles implementations
              ∨ g ∈ declaredTestFiles implementations goals
          · rw [if_pos h4] at h
            exact absurd h (by simp)
          · rw [if_neg h4] at h
            have hgf : g = f := undeclaredMsg_inj (Option.some.inj h)
            subst hgf
            push_neg at h4
            exact ⟨rfl, h1, h2, Bool.not_eq_true _ ▸ (by simpa using h3), h4.1, h4.2⟩
    · rw [if_neg h1] at h
      exact absurd h (by simp)
  · rintro ⟨rfl, h1, h2, h3, h4, h5⟩
    rw [if_pos h1, if_pos h2, if_neg (by simp [h3]), if_neg (by tauto)]

theorem count_undeclared_filterMap (implementations : List Implementation)
    (goals : Option (List Goal)) (fs : FileSystem) (f : String) :
    ∀ l : List String, l.Nodup →
      (l.filterMap (emitUndeclared implementations goals fs)).count (undeclaredMsg f)
        = if f ∈ l ∧ notPruned f = true ∧ extOfLower f ∈ codeExts
            ∧ examplesSkip fs f = false
            ∧ f ∉ declaredFiles implementations
            ∧ f ∉ declaredTestFiles implementations goals
          then 1 else 0 := by
  intro l
  induction l with
  | nil =>
    intro _
    simp
  | cons x rest ih =>
    intro hnd
    rcases List.nodup_cons.1 hnd with ⟨hx, hndr⟩
    rw [List.filterMap_cons]
    cases hemit : emitUndeclared implementations goals fs x with
    | none =>
      rw [ih hndr]
      by_cases hcond : f ∈ rest ∧ notPruned f = true ∧ extOfLower f ∈ codeExts
          ∧ examplesSkip fs f = false ∧ f ∉ declaredFiles implementations
          ∧ f ∉ declaredTestFiles implementations goals
      · rw [if_pos hcond, if_pos ⟨List.mem_cons_of_mem _ hcond.1, hcond.2⟩]
      · rw [if_neg hcond]
        by_cases hfull : f ∈ x :: rest ∧ notPruned f = true ∧ extOfLower f ∈ codeExts
            ∧ examplesSkip fs f = false ∧ f ∉ declaredFiles implementations
            ∧ f ∉ declaredTestFiles implementations goals
        · rcases List.mem_cons.1 hfull.1 with hfx | hfr
          · exfalso
            have : emitUndeclared implementations goals fs x = some (undeclaredMsg f) :=
              (emitUndeclared_eq_some_iff implementations goals fs f x).2
                ⟨hfx.symm, hfull.2⟩
            rw [hemit] at this
            exact Option.noConfusion this
          · exact absurd ⟨hfr, hfull.2⟩ hcond
        · rw [if_neg hfull]
    | some m =>
      rw [List.count_cons, ih hndr]
      by_cases hm : m = undeclaredMsg f
      · subst hm
        have hchar := (emitUndeclared_eq_some_iff implementations goals fs f x).1 hemit
        rcases hchar with ⟨hxf, hrest⟩
        subst hxf
        have hnotin : ¬ (x ∈ rest ∧ notPruned x = true ∧ extOfLower x ∈ codeExts
            ∧ examplesSkip fs x = false ∧ x ∉ declaredFiles implementations
            ∧ x ∉ declaredTestFiles implementations goals) := by
          intro hc
          exact hx hc.1
        have hall : x ∈ x :: rest ∧ notPruned x = true ∧ extOfLower x ∈ codeExts
            ∧ examplesSkip fs x = false ∧ x ∉ declaredFiles implementations
            ∧ x ∉ declaredTestFiles implementations goals :=
          ⟨List.mem_cons_self x rest, hrest⟩
        rw [if_neg hnotin, if_pos hall]
        simp
      · have hne : (m == undeclaredMsg f) = false := beq_eq_false_iff_ne.2 hm
        rw [hne]
        by_cases hcond : f ∈ rest ∧ notPruned f = true ∧ extOfLower f ∈ codeExts
            ∧ examplesSkip fs f = false ∧ f ∉ declaredFiles implementations
            ∧ f ∉ declaredTestFiles implementations goals
        · have hall : f ∈ x :: rest ∧ notPruned f = true ∧ extOfLower f ∈ codeExts
              ∧ examplesSkip fs f = false ∧ f ∉ declaredFiles implementations
              ∧ f ∉ declaredTestFiles implementations goals :=
            ⟨List.mem_cons_of_mem _ hcond.1, hcond.2⟩
          rw [if_pos hcond, if_pos hall]
          simp
        · rw [if_neg hcond]
          by_cases hall : f ∈ x :: rest ∧ notPruned f = true ∧ extOfLower f ∈ codeExts
              ∧ examplesSkip fs f = false ∧ f ∉ declaredFiles implementations
              ∧ f ∉ declaredTestFiles implementations goals
          · rcases List.mem_cons.1 hall.1 with hfx | hfr
            · exfalso
              have hsome : emitUndeclared implementations goals fs x
                  = some (undeclaredMsg f) :=
                (emitUndeclared_eq_some_iff implementations goals fs f x).2
                  ⟨hfx.symm, hall.2⟩
              rw [hemit] at hsome
              exact hm (Option.some.inj hsome)
            · exact absurd ⟨hfr, hall.2⟩ hcond
          · rw [if_neg hall]
            simp

/-! ## C5 — undeclared-file reporting -/

/-- C5 counterexample: `y.py` lies directly under the project root
`/home/examples/proj`, has a supported extension, is declared nowhere and
is inside no excluded directory under the root, yet `validate_code_inventory`
reports nothing: the scan also consults the segments of the root's own
absolute path, and that path contains `examples` (validation.py
lines 189-197). -/
theorem c5_counterexample :
    "y.py" ∈ fsExamplesRoot.files
  ∧ notPruned "y.py" = true
  ∧ extOfLower "y.py" ∈ codeExts
  ∧ "y.py" ∉ declaredFiles ([] : List Implementation)
  ∧ "y.py" ∉ declaredTestFiles [] none
  ∧ validateCodeInventory [] none fsExamplesRoot = [] := by decide

/-- C5 (amended): the bottom-up scan reports exactly one undeclared-file
error naming `f` iff `f` is on disk (each walked file once — `Nodup`), has
a supported source extension, no directory segment of its relative path is
an excluded name, the per-file examples test fails — which, beyond exact
path-segment match under the project root, also skips `f` whenever the
*absolute* path (the root's own segments included) contains an `examples`
segment — and `f` is in no Implementation's `code_files` or `test_files`
(nor a Goal acceptance test when goals are supplied); otherwise it reports
that error zero times. -/
theorem c5_undeclared_file_report (implementations : List Implementation)
    (goals : Option (List Goal)) (fs : FileSystem) (f : String)
    (hnd : fs.files.Nodup) :
    (bottomUpErrors implementations goals fs).count (undeclaredMsg f)
      = if f ∈ fs.files ∧ notPruned f = true ∧ extOfLower f ∈ codeExts
          ∧ examplesSkip fs f = false
          ∧ f ∉ declaredFiles implementations
          ∧ f ∉ declaredTestFiles implementations goals
        then 1 else 0 := by
  rw [bottomUpErrors_eq_filterMap]
  exact count_undeclared_filterMap implementations goals fs f fs.files hnd

/-- C5 witness: on the `/home/proj` fixture the undeclared file `y.py` is
reported exactly once. -/
theorem c5_undeclared_file_report_witness :
    fsPlainRoot.files.Nodup
  ∧ (bottomUpErrors [] none fsPlainRoot).count (undeclaredMsg "y.py") = 1 := by
  refine ⟨by decide, ?_⟩
  rw [c5_undeclared_file_report [] none fsPlainRoot "y.py" (by decide)]
  decide

/-! ## C9 — acceptance tests are never undeclared files -/

/-- C9: when the `goals` argument is supplied, every Goal's
`acceptance_test` is added to the declared-test-files set before the
bottom-up scan, so a file named as some Goal's acceptance test is never
reported as an undeclared code file, regardless of the Implementations'
declarations. -/
theorem c9_acceptance_test_not_undeclared (implementations : List Implementation)
    (gs : List Goal) (g : Goal) (fs : FileSystem) (hg : g ∈ gs) :
    g.acceptance_test ∈ declaredTestFiles implementations (some gs)
  ∧ undeclaredMsg g.acceptance_test ∉ bottomUpErrors implementations (some gs) fs := by
  have hmem : g.acceptance_test ∈ declaredTestFiles implementations (some gs) := by
    unfold declaredTestFiles pyOrList
    exact List.mem_append.2 (Or.inr (List.mem_map.2 ⟨g, hg, rfl⟩))
  refine ⟨hmem, ?_⟩
  rw [bottomUpErrors_eq_filterMap]
  intro hcon
  rcases List.mem_filterMap.1 hcon with ⟨x, _, hx⟩
  have hchar := (emitUndeclared_eq_some_iff implementations (some gs) fs
    g.acceptance_test x).1 hx
  exact hchar.2.2.2.2.2 hmem

/-- C9 witness: the fixture Goal's acceptance test `tests/uat.py` exists on
disk, is declared by no Implementation, and is not reported. -/
theorem c9_acceptance_test_not_undeclared_witness :
    goalUat ∈ [goalUat]
  ∧ undeclaredMsg goalUat.acceptance_test ∉ bottomUpErrors [] (some [goalUat]) fsUat :=
  ⟨by decide,
    (c9_acceptance_test_not_undeclared [] [goalUat] goalUat fsUat (by decide)).2⟩

/-! ## C7 — guarded extraction and error conversion -/

theorem flatMap_congr_of_mem {α β : Type} {l : List α} {f g : α → List β}
    (h : ∀ a ∈ l, f a = g a) : l.flatMap f = l.flatMap g := by
  induction l with
  | nil => rfl
  | cons x rest ih =>
    rw [List.flatMap_cons, List.flatMap_cons, h x (List.mem_cons_self x rest),
      ih (fun a ha => h a (List.mem_cons_of_mem _ ha))]

theorem fileErrors_congr (implementations : List Implementation) (fs1 fs2 : FileSystem)
    (hf : fs1.files = fs2.files)
    (hpy : ∀ p, requestedPy implementations fs1 p → fs1.pyExtract p = fs2.pyExtract p)
    (hjs : ∀ p, requestedJs implementations fs1 p → fs1.jsExtract p = fs2.jsExtract p)
    (i : Implementation) (hi : i ∈ implementations) (p : String)
    (hp : p ∈ i.code_files) :
    fileErrors fs1 i p = fileErrors fs2 i p := by
  unfold fileErrors
  by_cases hmem : p ∈ fs1.files
  · rw [if_pos hmem, if_pos (hf ▸ hmem)]
    cases hlk : lookupMD i.must_define p with
    | none => rfl
    | some req =>
      dsimp only
      by_cases hpyext : extOfLower p = ".py"
      · rw [if_pos hpyext, if_pos hpyext]
        have hreq : requestedPy implementations fs1 p :=
          ⟨i, hi, hp, hmem, by rw [hlk]; rfl, hpyext⟩
        rw [hpy p hreq]
      · rw [if_neg hpyext, if_neg hpyext]
        by_cases hjsext : extOfLower p ∈ jsExts
        · rw [if_pos hjsext, if_pos hjsext]
          have hreq : requestedJs implementations fs1 p :=
            ⟨i, hi, hp, hmem, by rw [hlk]; rfl, hjsext⟩
          rw [hjs p hreq]
        · rw [if_neg hjsext, if_neg hjsext]
  · rw [if_neg hmem, if_neg (by rw [← hf]; exact hmem)]

theorem bottomUpErrors_congr (implementations : List Implementation)
    (goals : Option (List Goal)) (fs1 fs2 : FileSystem)
    (hf : fs1.files = fs2.files) (hr : fs1.rootParts = fs2.rootParts) :
    bottomUpErrors implementations goals fs1 = bottomUpErrors implementations goals fs2 := by
  rw [bottomUpErrors_eq_filterMap, bottomUpErrors_eq_filterMap, hf]
  have hfun : emitUndeclared implementations goals fs1
      = emitUndeclared implementations goals fs2 := by
    funext f
    unfold emitUndeclared examplesSkip
    rw [hr]
  rw [hfun]

/-- C7: `validate_code_inventory` never raises to its caller — in the model
it is a total function of the snapshot, and this theorem pins down the two
halves of the claim.  First, the result depends on the extractor oracles
only at paths that are declared in some Implementation's `code_files`,
exist on disk, and are named in that Implementation's `must_define` with a
matching extension: two snapshots agreeing on files, root and on the
extractors at those requested paths validate identically, so no other path
is ever parsed.  Second, an extraction failure (`ValueError`, which both
extractors raise for every internal error) at such a path becomes an error
entry naming that implementation and file. -/
theorem c7_extraction_guarded (implementations : List Implementation)
    (goals : Option (List Goal)) :
    (∀ fs1 fs2 : FileSystem, fs1.files = fs2.files → fs1.rootParts = fs2.rootParts →
      (∀ p, requestedPy implementations fs1 p → fs1.pyExtract p = fs2.pyExtract p) →
      (∀ p, requestedJs implementations fs1 p → fs1.jsExtract p = fs2.jsExtract p) →
      validateCodeInventory implementations goals fs1
        = validateCodeInventory implementations goals fs2)
  ∧ (∀ (fs : FileSystem) (i : Implementation) (p : String)
        (req : List String) (e : String),
      i ∈ implementations → p ∈ i.code_files → p ∈ fs.files →
      lookupMD i.must_define p = some req → extOfLower p = ".py" →
      fs.pyExtract p = Except.error e →
      (i.id ++ ": " ++ p ++ " - " ++ e) ∈ validateCodeInventory implementations goals fs)
  ∧ (∀ (fs : FileSystem) (i : Implementation) (p : String)
        (req : List String) (e : String),
      i ∈ implementations → p ∈ i.code_files → p ∈ fs.files →
      lookupMD i.must_define p = some req → extOfLower p ∈ jsExts →
      fs.jsExtract p = Except.error e →
      (i.id ++ ": " ++ p ++ " - " ++ e) ∈ validateCodeInventory implementations goals fs) := by
  refine ⟨?_, ?_, ?_⟩
  · intro fs1 fs2 hf hr hpy hjs
    unfold validateCodeInventory
    rw [bottomUpErrors_congr implementations goals fs1 fs2 hf hr]
    unfold topDownErrors
    rw [flatMap_congr_of_mem (fun i hi =>
      flatMap_congr_of_mem (fun p hp =>
        fileErrors_congr implementations fs1 fs2 hf hpy hjs i hi p hp))]
  · intro fs i p req e hi hp hmem hlk hext herr
    unfold validateCodeInventory
    apply List.mem_append.2
    apply Or.inl
    unfold topDownErrors
    apply List.mem_flatMap.2
    refine ⟨i, hi, ?_⟩
    apply List.mem_flatMap.2
    refine ⟨p, hp, ?_⟩
    unfold fileErrors
    rw [if_pos hmem, hlk]
    dsimp only
    rw [if_pos hext, herr]
    exact List.mem_singleton.2 rfl
  · intro fs i p req e hi hp hmem hlk hext herr
    unfold validateCodeInventory
    apply List.mem_append.2
    apply Or.inl
    unfold topDownErrors
    apply List.mem_flatMap.2
    refine ⟨i, hi, ?_⟩
    apply List.mem_flatMap.2
    refine ⟨p, hp, ?_⟩
    unfold fileErrors
    rw [if_pos hmem, hlk]
    dsimp only
    have hnotpy : ¬ extOfLower p = ".py" := by
      intro h
      rw [h] at hext
      exact absurd hext (by decide)
    rw [if_neg hnotpy, if_pos hext, herr]
    exact List.mem_singleton.2 rfl

/-- C7 witness: on the fixture whose python extraction raises
`ValueError("boom")` for the declared, existing, `must_define`-named file
`src/a.py`, the failure appears as an error entry tied to `I-P` and the
file. -/
theorem c7_extraction_guarded_witness :
    implParseFail ∈ [implParseFail]
  ∧ "src/a.py" ∈ implParseFail.code_files
  ∧ lookupMD implParseFail.must_define "src/a.py" = some ["Foo"]
  ∧ extOfLower "src/a.py" = ".py"
  ∧ fsParseFail.pyExtract "src/a.py" = Except.error "boom"
  ∧ ("I-P" ++ ": " ++ "src/a.py" ++ " - " ++ "boom")
      ∈ validateCodeInventory [implParseFail] none fsParseFail := by
  refine ⟨by decide, by decide, by decide, by decide, rfl, ?_⟩
  exact (c7_extraction_guarded [implParseFail] none).2.1 fsParseFail implParseFail
    "src/a.py" ["Foo"] "boom" (by decide) (by decide) (by decide) (by decide)
    (by decide) rfl

/-! ## C6 — a two-element requires-cycle -/

theorem lookupLast_pair_left (X Y : Solution) (h : X.id ≠ Y.id) :
    lookupLast (fun s => s.id) [X, Y] X.id = some X := by
  have hbe : (Y.id == X.id) = false := beq_eq_false_iff_ne.2 (Ne.symm h)
  simp [lookupLast, List.find?, hbe]

theorem lookupLast_pair_right (X Y : Solution) :
    lookupLast (fun s => s.id) [X, Y] Y.id = some Y := by
  simp [lookupLast, List.find?, beq_iff_eq]

theorem hasCycle_two (X Y : Solution) (h : X.id ≠ Y.id)
    (hX : X.requires = [Y.id]) (hY : Y.requires = [X.id]) :
    hasCycle [X, Y] 3 X.id [] [] = ([Y.id, X.id], some [X.id, Y.id, X.id]) := by
  have l1 : lookupLast (fun s => s.id) [X, Y] X.id = some X := lookupLast_pair_left X Y h
  have l2 : lookupLast (fun s => s.id) [X, Y] Y.id = some Y := lookupLast_pair_right X Y
  simp [hasCycle, runRequires, l1, l2, hX, hY, Ne.symm h, h]

theorem validateDependencies_two (X Y : Solution) (h : X.id ≠ Y.id)
    (hX : X.requires = [Y.id]) (hY : Y.requires = [X.id]) :
    validateDependencies [X, Y] = [cycleMsg [X.id, Y.id, X.id]] := by
  have hdng : danglingRequireErrors [X, Y] = [] := by
    simp [danglingRequireErrors, hX, hY]
  have hcyc : cycleErrors [X, Y] = [cycleMsg [X.id, Y.id, X.id]] := by
    unfold cycleErrors
    have hstep1 : cycleStep [X, Y] ([], []) X
        = ([Y.id, X.id], [cycleMsg [X.id, Y.id, X.id]]) := by
      unfold cycleStep
      rw [if_neg (List.not_mem_nil X.id)]
      have hfuel : [X, Y].length + 1 = 3 := by simp
      rw [hfuel, hasCycle_two X Y h hX hY]
      rfl
    have hstep2 : cycleStep [X, Y] ([Y.id, X.id], [cycleMsg [X.id, Y.id, X.id]]) Y
        = ([Y.id, X.id], [cycleMsg [X.id, Y.id, X.id]]) := by
      unfold cycleStep
      rw [if_pos (by simp)]
    rw [List.foldl_cons, hstep1, List.foldl_cons, hstep2]
    rfl
  unfold validateDependencies
  rw [hdng, hcyc, List.nil_append]

/-- C6: for two Solutions `A`, `B` with distinct ids requiring each other,
`validate_dependencies` returns exactly one error; it is a
circular-dependency message whose arrow-joined sequence contains both
`A.id` and `B.id`, and this holds whichever of the two orderings of the
input list is used. -/
theorem c6_two_cycle_single_error (A B : Solution) (h : A.id ≠ B.id)
    (hA : A.requires = [B.id]) (hB : B.requires = [A.id])
    (l : List Solution) (hl : l = [A, B] ∨ l = [B, A]) :
    ∃ cyc : List String, validateDependencies l = [cycleMsg cyc]
      ∧ A.id ∈ cyc ∧ B.id ∈ cyc := by
  rcases hl with rfl | rfl
  · exact ⟨[A.id, B.id, A.id], validateDependencies_two A B h hA hB,
      by simp, by simp⟩
  · exact ⟨[B.id, A.id, B.id], validateDependencies_two B A (Ne.symm h) hB hA,
      by simp, by simp⟩

/-- C6 witness: the fixture cycle `SA → SB → SA`. -/
theorem c6_two_cycle_single_error_witness :
    ∃ cyc : List String, validateDependencies twoCycleSolutions = [cycleMsg cyc]
      ∧ "SA" ∈ cyc ∧ "SB" ∈ cyc :=
  c6_two_cycle_single_error (sampleSol "SA" ["G"] ["SB"]) (sampleSol "SB" ["G"] ["SA"])
    (by decide) (by decide) (by decide) twoCycleSolutions (Or.inl (by decide))

/-! ## C1 — DFS invariants of the cycle search -/

theorem reach_stays_black (sols : List Solution) {V P : List String}
    (hBC : BlackClosed sols V P) {u w : String} (hu : u ∈ V) (hup : u ∉ P)
    (hr : Relation.ReflTransGen (EdgeRel sols) u w) : w ∈ V ∧ w ∉ P := by
  induction hr with
  | refl => exact ⟨hu, hup⟩
  | tail _ hedge ih => exact hBC _ ih.1 ih.2 _ hedge

theorem unvisited_subset_of_subset (sols : List Solution) {V V' : List String}
    (h : V ⊆ V') : unvisitedIds sols V' ⊆ unvisitedIds sols V := by
  intro x hx
  rw [unvisitedIds, Finset.mem_filter] at hx ⊢
  exact ⟨hx.1, fun hmem => hx.2 (h hmem)⟩

theorem unvisited_cons (sols : List Solution) (start : String) (V : List String) :
    unvisitedIds sols (start :: V) = (unvisitedIds sols V).erase start := by
  ext x
  simp only [unvisitedIds, Finset.mem_filter, Finset.mem_erase, List.mem_cons]
  tauto

theorem unvisited_card_lt (sols : List Solution) {fuel : Nat} {start : String}
    {V : List String} (hfuel : (unvisitedIds sols V).card < fuel + 1)
    (hid : start ∈ unvisitedIds sols V) :
    (unvisitedIds sols (start :: V)).card < fuel := by
  rw [unvisited_cons, Finset.card_erase_of_mem hid]
  have hpos : 1 ≤ (unvisitedIds sols V).card := Finset.card_pos.2 ⟨start, hid⟩
  omega

theorem mem_unvisited_of_lookup {sols : List Solution} {start : String}
    {sol : Solution} {V : List String}
    (hlk : lookupLast (fun s => s.id) sols start = some sol) (hV : start ∉ V) :
    start ∈ unvisitedIds sols V := by
  rcases lookupLast_mem hlk with ⟨hmem, hid⟩
  rw [unvisitedIds, Finset.mem_filter]
  exact ⟨List.mem_toFinset.2 (List.mem_map.2 ⟨sol, hmem, hid⟩), hV⟩

theorem edge_requires {sols : List Solution} {x y : String} {sol : Solution}
    (hlk : lookupLast (fun s => s.id) sols x = some sol) :
    EdgeRel sols x y ↔ y ∈ sol.requires := by
  constructor
  · rintro ⟨s, hs, hy⟩
    rw [hlk] at hs
    cases Option.some.inj hs
    exact hy
  · intro hy
    exact ⟨sol, hlk, hy⟩

/-- When `has_cycle` (or its requirements loop) returns no cycle and its
precondition holds, the DFS invariants are preserved: visited grows, new
ids are off the path, black nodes stay edge-closed and acyclic, and the
inspected start (resp. all requirements) end up fully processed. -/
theorem dfs_invariant (sols : List Solution) : ∀ fuel : Nat,
    (∀ start V P v', hasCycle sols fuel start V P = (v', none) →
      DfsPre sols fuel V P → DfsPost sols V P v' ∧ start ∈ v' ∧ start ∉ P)
  ∧ (∀ reqs V P v', runRequires (hasCycle sols fuel) reqs V P = (v', none) →
      DfsPre sols fuel V P →
      DfsPost sols V P v' ∧ ∀ r ∈ reqs, r ∈ v' ∧ r ∉ P) := by
  intro fuel
  induction fuel with
  | zero =>
    constructor
    · intro start V P v' _ hpre
      exact absurd hpre.1 (Nat.not_lt_zero _)
    · intro reqs V P v' _ hpre
      exact absurd hpre.1 (Nat.not_lt_zero _)
  | succ fuel ih =>
    have HC : ∀ start V P v', hasCycle sols (fuel + 1) start V P = (v', none) →
        DfsPre sols (fuel + 1) V P →
        DfsPost sols V P v' ∧ start ∈ v' ∧ start ∉ P := by
      intro start V P v' heq hpre
      obtain ⟨hfuel, hPV, hBC, hBA⟩ := hpre
      rw [hasCycle] at heq
      by_cases hsp : start ∈ P
      · rw [if_pos hsp] at heq
        exact absurd (congrArg Prod.snd heq) (by simp)
      rw [if_neg hsp] at heq
      by_cases hsv : start ∈ V
      · rw [if_pos hsv] at heq
        injection heq with hv' _
        subst hv'
        exact ⟨⟨fun x hx => hx, fun u hu => Or.inl hu, hBC, hBA⟩, hsv, hsp⟩
      rw [if_neg hsv] at heq
      rcases hlk : lookupLast (fun s => s.id) sols start with _ | sol
      · rw [hlk] at heq
        dsimp only at heq
        injection heq with hv' _
        subst hv'
        refine ⟨⟨fun x hx => List.mem_cons_of_mem _ hx, ?_, ?_, ?_⟩,
          List.mem_cons_self start V, hsp⟩
        · intro u hu
          rcases List.mem_cons.1 hu with rfl | huV
          · exact Or.inr hsp
          · exact Or.inl huV
        · intro u hu hup w hew
          rcases List.mem_cons.1 hu with rfl | huV
          · rcases hew with ⟨s, hs, -⟩
            rw [hlk] at hs
            exact absurd hs (by simp)
          · obtain ⟨hwV, hwP⟩ := hBC u huV hup w hew
            exact ⟨List.mem_cons_of_mem _ hwV, hwP⟩
        · intro u hu hup hT
          rcases List.mem_cons.1 hu with rfl | huV
          · rcases Relation.TransGen.head'_iff.1 hT with ⟨b, ⟨s, hs, -⟩, -⟩
            rw [hlk] at hs
            exact absurd hs (by simp)
          · exact hBA u huV hup hT
      · rw [hlk] at heq
        dsimp only at heq
        have hid : start ∈ unvisitedIds sols V := mem_unvisited_of_lookup hlk hsv
        have hfuel' : (unvisitedIds sols (start :: V)).card < fuel :=
          unvisited_card_lt sols hfuel hid
        have hPV' : P ++ [start] ⊆ start :: V := by
          intro x hx
          rcases List.mem_append.1 hx with h1 | h1
          · exact List.mem_cons_of_mem _ (hPV h1)
          · rw [List.mem_singleton.1 h1]
            exact List.mem_cons_self start V
        have hBC' : BlackClosed sols (start :: V) (P ++ [start]) := by
          intro u hu hup w hew
          have hune : u ≠ start := by
            intro e
            exact hup (by rw [e]; exact List.mem_append.2 (Or.inr (List.mem_singleton.2 rfl)))
          have huV : u ∈ V := (List.mem_cons.1 hu).resolve_left hune
          have hupP : u ∉ P := fun hp => hup (List.mem_append.2 (Or.inl hp))
          obtain ⟨hwV, hwP⟩ := hBC u huV hupP w hew
          refine ⟨List.mem_cons_of_mem _ hwV, ?_⟩
          intro hw
          rcases List.mem_append.1 hw with h1 | h1
          · exact hwP h1
          · rw [List.mem_singleton.1 h1] at hwV
            exact hsv hwV
        have hBA' : BlackAcyclic sols (start :: V) (P ++ [start]) := by
          intro u hu hup hT
          have hune : u ≠ start := by
            intro e
            exact hup (by rw [e]; exact List.mem_append.2 (Or.inr (List.mem_singleton.2 rfl)))
          have huV : u ∈ V := (List.mem_cons.1 hu).resolve_left hune
          have hupP : u ∉ P := fun hp => hup (List.mem_append.2 (Or.inl hp))
          exact hBA u huV hupP hT
        obtain ⟨⟨hsub, hnew, hBC2, hBA2⟩, hreqs⟩ :=
          ih.2 sol.requires (start :: V) (P ++ [start]) v' heq
            ⟨hfuel', hPV', hBC', hBA'⟩
        have hstartv : start ∈ v' := hsub (List.mem_cons_self start V)
        refine ⟨⟨fun x hx => hsub (List.mem_cons_of_mem _ hx), ?_, ?_, ?_⟩, hstartv, hsp⟩
        · intro u hu
          rcases hnew u hu with h1 | h1
          · rcases List.mem_cons.1 h1 with rfl | huV
            · exact Or.inr hsp
            · exact Or.inl huV
          · exact Or.inr (fun hp => h1 (List.mem_append.2 (Or.inl hp)))
        · intro u hu hup w hew
          by_cases hus : u = start
          · subst hus
            have hw : w ∈ sol.requires := (edge_requires hlk).1 hew
            obtain ⟨hwv, hwp⟩ := hreqs w hw
            exact ⟨hwv, fun hp => hwp (List.mem_append.2 (Or.inl hp))⟩
          · have hup' : u ∉ P ++ [start] := by
              intro hp
              rcases List.mem_append.1 hp with h1 | h1
              · exact hup h1
              · exact hus (List.mem_singleton.1 h1)
            obtain ⟨hwv, hwp1⟩ := hBC2 u hu hup' w hew
            exact ⟨hwv, fun hp => hwp1 (List.mem_append.2 (Or.inl hp))⟩
        · intro u hu hup hT
          by_cases hus : u = start
          · subst hus
            rcases Relation.TransGen.head'_iff.1 hT with ⟨b, heb, hrb⟩
            have hb : b ∈ sol.requires := (edge_requires hlk).1 heb
            obtain ⟨hbv, hbp⟩ := hreqs b hb
            have hblack := reach_stays_black sols hBC2 hbv hbp hrb
            exact hblack.2 (List.mem_append.2 (Or.inr (List.mem_singleton.2 rfl)))
          · have hup' : u ∉ P ++ [start] := by
              intro hp
              rcases List.mem_append.1 hp with h1 | h1
              · exact hup h1
              · exact hus (List.mem_singleton.1 h1)
            exact hBA2 u hu hup' hT
    refine ⟨HC, ?_⟩
    intro reqs
    induction reqs with
    | nil =>
      intro V P v' heq hpre
      rw [runRequires] at heq
      injection heq with hv' _
      subst hv'
      exact ⟨⟨fun x hx => hx, fun u hu => Or.inl hu, hpre.2.2.1, hpre.2.2.2⟩,
        fun r hr => absurd hr (List.not_mem_nil r)⟩
    | cons r rest ihr =>
      intro V P v' heq hpre
      rw [runRequires] at heq
      rcases hres : hasCycle sols (fuel + 1) r V P with ⟨v1, res1⟩
      rw [hres] at heq
      cases res1 with
      | some c =>
        dsimp only at heq
        exact absurd (congrArg Prod.snd heq) (by simp)
      | none =>
        dsimp only at heq
        obtain ⟨⟨hs1, hn1, hbc1, hba1⟩, hrv, hrp⟩ := HC r V P v1 hres hpre
        have hpre1 : DfsPre sols (fuel + 1) v1 P :=
          ⟨lt_of_le_of_lt (Finset.card_le_card (unvisited_subset_of_subset sols hs1))
              hpre.1,
            fun x hx => hs1 (hpre.2.1 hx), hbc1, hba1⟩
        obtain ⟨⟨hs2, hn2, hbc2, hba2⟩, hrest⟩ := ihr v1 P v' heq hpre1
        refine ⟨⟨fun x hx => hs2 (hs1 hx), ?_, hbc2, hba2⟩, ?_⟩
        · intro u hu
          rcases hn2 u hu with h1 | h1
          · exact hn1 u h1
          · exact Or.inr h1
        · intro r' hr'
          rcases List.mem_cons.1 hr' with rfl | h1
          · exact ⟨hs2 hrv, hrp⟩
          · exact hrest r' h1

theorem foldl_cycleStep_errs_mono (sols : List Solution) :
    ∀ (rem : List Solution) (st : List String × List String),
      ∃ tail, (rem.foldl (cycleStep sols) st).2 = st.2 ++ tail := by
  intro rem
  induction rem with
  | nil =>
    intro st
    exact ⟨[], (List.append_nil _).symm⟩
  | cons sol rest ih =>
    intro st
    rw [List.foldl_cons]
    have hstep : ∃ mid, (cycleStep sols st sol).2 = st.2 ++ mid := by
      unfold cycleStep
      by_cases h : sol.id ∈ st.1
      · rw [if_pos h]
        exact ⟨[], (List.append_nil _).symm⟩
      · rw [if_neg h]
        rcases hres : hasCycle sols (sols.length + 1) sol.id st.1 [] with ⟨v, res⟩
        cases res with
        | none => exact ⟨[], (List.append_nil _).symm⟩
        | some c => exact ⟨[cycleMsg c], rfl⟩
    obtain ⟨mid, hmid⟩ := hstep
    obtain ⟨tail, htail⟩ := ih (cycleStep sols st sol)
    exact ⟨mid ++ tail, by rw [htail, hmid, List.append_assoc]⟩

theorem loop_none_inv (sols : List Solution) :
    ∀ (rem : List Solution) (V : List String),
      BlackClosed sols V [] → BlackAcyclic sols V [] →
      (rem.foldl (cycleStep sols) (V, [])).2 = [] →
      V ⊆ (rem.foldl (cycleStep sols) (V, [])).1
      ∧ BlackClosed sols (rem.foldl (cycleStep sols) (V, [])).1 []
      ∧ BlackAcyclic sols (rem.foldl (cycleStep sols) (V, [])).1 []
      ∧ ∀ s ∈ rem, s.id ∈ (rem.foldl (cycleStep sols) (V, [])).1 := by
  intro rem
  induction rem with
  | nil =>
    intro V hbc hba _
    exact ⟨fun x hx => hx, hbc, hba, by simp⟩
  | cons sol rest ih =>
    intro V hbc hba hnil
    rw [List.foldl_cons] at hnil ⊢
    by_cases hmem : sol.id ∈ V
    · have hstep : cycleStep sols (V, []) sol = (V, []) := by
        unfold cycleStep
        rw [if_pos hmem]
      rw [hstep] at hnil ⊢
      obtain ⟨hs, hbc2, hba2, hcov⟩ := ih V hbc hba hnil
      refine ⟨hs, hbc2, hba2, ?_⟩
      intro s hsmem
      rcases List.mem_cons.1 hsmem with rfl | h1
      · exact hs hmem
      · exact hcov s h1
    · rcases hres : hasCycle sols (sols.length + 1) sol.id V [] with ⟨v1, res⟩
      cases res with
      | some c =>
        exfalso
        have hstep : cycleStep sols (V, []) sol = (v1, [] ++ [cycleMsg c]) := by
          unfold cycleStep
          rw [if_neg hmem, hres]
        rw [hstep] at hnil
        obtain ⟨tail, htail⟩ := foldl_cycleStep_errs_mono sols rest (v1, [] ++ [cycleMsg c])
        rw [htail] at hnil
        simp at hnil
      | none =>
        have hstep : cycleStep sols (V, []) sol = (v1, []) := by
          unfold cycleStep
          rw [if_neg hmem, hres]
        rw [hstep] at hnil ⊢
        have hpre : DfsPre sols (sols.length + 1) V [] := by
          refine ⟨?_, List.nil_subset V, hbc, hba⟩
          have h1 : (unvisitedIds sols V).card
              ≤ ((sols.map fun s => s.id).toFinset).card :=
            Finset.card_filter_le _ _
          have h2 : ((sols.map fun s => s.id).toFinset).card
              ≤ (sols.map fun s => s.id).length :=
            List.toFinset_card_le _
          simp only [List.length_map] at h2
          omega
        obtain ⟨⟨hs1, -, hbc1, hba1⟩, hsolv, -⟩ :=
          (dfs_invariant sols (sols.length + 1)).1 sol.id V [] v1 hres hpre
        obtain ⟨hs2, hbc2, hba2, hcov⟩ := ih v1 hbc1 hba1 hnil
        refine ⟨fun x hx => hs2 (hs1 hx), hbc2, hba2, ?_⟩
        intro s hsmem
        rcases List.mem_cons.1 hsmem with rfl | h1
        · exact hs2 hsolv
        · exact hcov s h1

/-- Every cycle value `has_cycle` returns is the current path at the moment
of revisiting, with the revisited id appended: `q ++ [r]` where `r ∈ q`. -/
theorem hasCycle_some_shape (sols : List Solution) : ∀ fuel : Nat,
    (∀ start V P v' c, hasCycle sols fuel start V P = (v', some c) →
      ∃ q r, c = q ++ [r] ∧ r ∈ q)
  ∧ (∀ reqs V P v' c, runRequires (hasCycle sols fuel) reqs V P = (v', some c) →
      ∃ q r, c = q ++ [r] ∧ r ∈ q) := by
  intro fuel
  induction fuel with
  | zero =>
    have h0 : ∀ start V P v' c, hasCycle sols 0 start V P = (v', some c) →
        ∃ q r, c = q ++ [r] ∧ r ∈ q := by
      intro start V P v' c heq
      rw [hasCycle] at heq
      exact absurd (congrArg Prod.snd heq) (by simp)
    refine ⟨h0, ?_⟩
    intro reqs
    induction reqs with
    | nil =>
      intro V P v' c heq
      rw [runRequires] at heq
      exact absurd (congrArg Prod.snd heq) (by simp)
    | cons r rest ihr =>
      intro V P v' c heq
      rw [runRequires] at heq
      rcases hres : hasCycle sols 0 r V P with ⟨v1, res1⟩
      rw [hres] at heq
      cases res1 with
      | some c1 =>
        dsimp only at heq
        injection heq with _ h2
        exact (Option.some.inj h2) ▸ h0 r V P v1 c1 hres
      | none =>
        dsimp only at heq
        exact ihr v1 P v' c heq
  | succ fuel ih =>
    have HC : ∀ start V P v' c, hasCycle sols (fuel + 1) start V P = (v', some c) →
        ∃ q r, c = q ++ [r] ∧ r ∈ q := by
      intro start V P v' c heq
      rw [hasCycle] at heq
      by_cases hsp : start ∈ P
      · rw [if_pos hsp] at heq
        injection heq with _ h2
        exact ⟨P, start, (Option.some.inj h2).symm, hsp⟩
      · rw [if_neg hsp] at heq
        by_cases hsv : start ∈ V
        · rw [if_pos hsv] at heq
          exact absurd (congrArg Prod.snd heq) (by simp)
        · rw [if_neg hsv] at heq
          rcases hlk : lookupLast (fun s => s.id) sols start with _ | sol
          · rw [hlk] at heq
            dsimp only at heq
            exact absurd (congrArg Prod.snd heq) (by simp)
          · rw [hlk] at heq
            dsimp only at heq
            exact ih.2 sol.requires (start :: V) (P ++ [start]) v' c heq
    refine ⟨HC, ?_⟩
    intro reqs
    induction reqs with
    | nil =>
      intro V P v' c heq
      rw [runRequires] at heq
      exact absurd (congrArg Prod.snd heq) (by simp)
    | cons r rest ihr =>
      intro V P v' c heq
      rw [runRequires] at heq
      rcases hres : hasCycle sols (fuel + 1) r V P with ⟨v1, res1⟩
      rw [hres] at heq
      cases res1 with
      | some c1 =>
        dsimp only at heq
        injection heq with _ h2
        exact (Option.some.inj h2) ▸ HC r V P v1 c1 hres
      | none =>
        dsimp only at heq
        exact ihr v1 P v' c heq

theorem cycleErrors_shape_aux (sols : List Solution) :
    ∀ (rem : List Solution) (st : List String × List String),
      (∀ m ∈ st.2, ∃ q r, m = cycleMsg (q ++ [r]) ∧ r ∈ q) →
      ∀ m ∈ (rem.foldl (cycleStep sols) st).2,
        ∃ q r, m = cycleMsg (q ++ [r]) ∧ r ∈ q := by
  intro rem
  induction rem with
  | nil =>
    intro st hst m hm
    exact hst m hm
  | cons sol rest ih =>
    intro st hst m hm
    rw [List.foldl_cons] at hm
    apply ih (cycleStep sols st sol) ?_ m hm
    intro m' hm'
    unfold cycleStep at hm'
    by_cases h : sol.id ∈ st.1
    · rw [if_pos h] at hm'
      exact hst m' hm'
    · rw [if_neg h] at hm'
      rcases hres : hasCycle sols (sols.length + 1) sol.id st.1 [] with ⟨v, res⟩
      rw [hres] at hm'
      cases res with
      | none => exact hst m' hm'
      | some c =>
        dsimp only at hm'
        rcases List.mem_append.1 hm' with h1 | h1
        · exact hst m' h1
        · obtain ⟨q, r, hqr, hr⟩ :=
            (hasCycle_some_shape sols (sols.length + 1)).1 sol.id st.1 [] v c hres
          exact ⟨q, r, by rw [List.mem_singleton.1 h1, hqr], hr⟩

/-- C1 (amended): `validate_dependencies` is the dangling-reference errors
followed by the cycle errors; whenever the `requires` graph contains a
cycle at least one circular-dependency error is reported; and every
reported cycle sequence is the *entire* current DFS path at the moment a
path node is revisited — including the ids through which the DFS entered
the cycle — with the revisited id appended at the end.  The revisited id
therefore occurs both inside the sequence and last, but not necessarily
first; the path portion is listed in the model's insertion order (CPython
iterates the `path` set in an unspecified order with the same contents). -/
theorem c1_cycle_report_shape (sols : List Solution) :
    validateDependencies sols = danglingRequireErrors sols ++ cycleErrors sols
  ∧ (HasRequiresCycle sols → cycleErrors sols ≠ [])
  ∧ ∀ m ∈ cycleErrors sols, ∃ q r, m = cycleMsg (q ++ [r]) ∧ r ∈ q := by
  refine ⟨rfl, ?_, ?_⟩
  · intro hcyc hnil
    unfold cycleErrors at hnil
    obtain ⟨hs, hbc, hba, hcov⟩ := loop_none_inv sols sols []
      (fun u hu => absurd hu (List.not_mem_nil u))
      (fun u hu => absurd hu (List.not_mem_nil u)) hnil
    rcases hcyc with ⟨x, hT⟩
    rcases Relation.TransGen.head'_iff.1 hT with ⟨b, ⟨s, hslk, -⟩, -⟩
    rcases lookupLast_mem hslk with ⟨hsmem, hsid⟩
    have hx := hcov s hsmem
    rw [hsid] at hx
    exact hba x hx (List.not_mem_nil x) hT
  · intro m hm
    unfold cycleErrors at hm
    exact cycleErrors_shape_aux sols sols ([], []) (by simp) m hm

/-- C1 counterexample: on the graph `A → B → C → B` the DFS revisits `B`
with current path `[A, B, C]`, and the reported sequence is
`A → B → C → B` — the whole path including the non-cycle id `A` — not the
claim's `B → C → B` (the path from the first revisited node back to
itself). -/
theorem c1_counterexample :
    validateDependencies cexSolutions = [cycleMsg ["A", "B", "C", "B"]]
  ∧ cycleMsg ["A", "B", "C", "B"] ≠ cycleMsg ["B", "C", "B"] := by decide

/-- C1 witness: the two-element cycle fixture makes the completeness
implication fire. -/
theorem c1_cycle_report_shape_witness :
    cycleErrors twoCycleSolutions ≠ [] := by
  apply (c1_cycle_report_shape twoCycleSolutions).2.1
  refine ⟨"SA", ?_⟩
  have e1 : EdgeRel twoCycleSolutions "SA" "SB" :=
    ⟨sampleSol "SA" ["G"] ["SB"], by decide, by decide⟩
  have e2 : EdgeRel twoCycleSolutions "SB" "SA" :=
    ⟨sampleSol "SB" ["G"] ["SA"], by decide, by decide⟩
  exact Relation.TransGen.head e1 (Relation.TransGen.single e2)

end Archlib
